import Mathlib

/-!
Verification of the interactive magnetic tracing core of the
AI-Vectorizer-for-Archaeology repository.

The Lean definitions below are shallow embeddings of the Python sources:

* `src/ai_vectorizer/tools/smart_trace_tool.py` — the tracing session
  (path points, checkpoints, undo, polygon closing, commit and reset),
  Chaikin smoothing (`smooth_bezier`) and the interactive A* search
  (`find_optimal_path`);
* `src/ai_vectorizer/core/path_finder.py` — the standalone A*
  (`PathFinder.find_path`);
* `src/ai_vectorizer/core/edge_detector.py` — strategy dispatch with the
  HED fallback and the cost-field construction (`get_edge_cost_map`).

Numbers that the Python code handles as floats are modelled as exact
rationals or reals; NumPy / OpenCV library calls are modelled by their
documented input/output behaviour.
-/

namespace AIVec

/-- A map/world coordinate point (`QgsPointXY`); coordinates modelled as `ℚ`. -/
abbrev Pt := ℚ × ℚ

/-! ## Chaikin smoothing: `SmartTraceTool.smooth_bezier` -/

/-- `q = p0 * 0.75 + p1 * 0.25`, the first Chaikin corner of a segment. -/
def qpt (p0 p1 : Pt) : Pt :=
  (p0.1 * (3/4) + p1.1 * (1/4), p0.2 * (3/4) + p1.2 * (1/4))

/-- `r = p0 * 0.25 + p1 * 0.75`, the second Chaikin corner of a segment. -/
def rpt (p0 p1 : Pt) : Pt :=
  (p0.1 * (1/4) + p1.1 * (3/4), p0.2 * (1/4) + p1.2 * (3/4))

/-- One Chaikin corner pair for a segment `(p0, p1)`, exactly as computed
inside the iteration loop of `smooth_bezier`. -/
def chaikinPair (p0 p1 : Pt) : List Pt := [qpt p0 p1, rpt p0 p1]

/-- One pass of the Chaikin loop in `smooth_bezier`.  For an open polyline the
first point is emitted first and the last point last; segments run over
`i < len - 1`.  For a closed polyline every index `i < len` contributes a
segment to its cyclic successor and no endpoint is preserved. -/
def chaikinStep (closed : Bool) (pts : List Pt) : List Pt :=
  let n := pts.length
  let count := if closed then n else n - 1
  let body := (List.range count).flatMap fun i =>
    chaikinPair (pts.getD i (0, 0)) (pts.getD ((i + 1) % n) (0, 0))
  if closed then body else pts.take 1 ++ body ++ pts.getLast?.toList

/-- One iteration of the `for _ in range(3)` loop in `smooth_bezier`: the
`len(pts) < 3` break guard followed by the Chaikin pass. -/
def chaikinGuard (closed : Bool) (cur : List Pt) : List Pt :=
  if cur.length < 3 then cur else chaikinStep closed cur

/-- `SmartTraceTool.smooth_bezier`: inputs of fewer than 3 points are returned
unchanged; otherwise the Chaikin pass runs 3 times (each pass guarded by the
same `len < 3` break).  The subsampling block that follows the `return`
statement in the source is unreachable and therefore not part of the
function's behaviour. -/
def smoothBezier (pts : List Pt) (closed : Bool) : List Pt :=
  if pts.length < 3 then pts
  else chaikinGuard closed (chaikinGuard closed (chaikinGuard closed pts))

/-! ## Tracing session state: `SmartTraceTool` fields and event handlers -/

/-- The session-level mutable fields of `SmartTraceTool` that the tracing
state machine reads and writes. -/
structure TraceState where
  isTracing : Bool
  pathPoints : List Pt
  previewPath : List Pt
  checkpoints : List ℕ
  startPoint : Option Pt
  lastMapPoint : Option Pt
deriving Repr, DecidableEq

/-- `reset_tracing`: every session field returns to its idle value. -/
def resetState : TraceState :=
  { isTracing := false, pathPoints := [], previewPath := [],
    checkpoints := [], startPoint := none, lastMapPoint := none }

/-- The start-tracing branch of `canvasPressEvent`: the placed point becomes
the whole path and checkpoint number 0. -/
def startTracing (p : Pt) : TraceState :=
  { isTracing := true, pathPoints := [p], previewPath := [],
    checkpoints := [0], startPoint := some p, lastMapPoint := some p }

/-- The hover branch of `canvasMoveEvent` stores the freshly computed preview
path; the preview itself is produced by `find_optimal_path` plus smoothing
and enters the model as a parameter. -/
def hoverPreview (st : TraceState) (preview : List Pt) : TraceState :=
  { st with previewPath := preview }

/-- The dragging branch of `canvasMoveEvent`: the (possibly snapped) sample
point is appended directly and the preview is cleared. -/
def dragAppend (st : TraceState) (p : Pt) : TraceState :=
  { st with
    previewPath := []
    pathPoints := st.pathPoints ++ [p]
    lastMapPoint := some p }

/-- The confirm branch of `canvasPressEvent` (left click while tracing, not
near the start): a non-empty preview is committed wholesale, otherwise the
click point is appended when the path is non-empty; a checkpoint at the new
last index is always recorded. -/
def confirmClick (st : TraceState) (click : Pt) : TraceState :=
  let path1 :=
    if st.previewPath ≠ [] then st.pathPoints ++ st.previewPath
    else if st.pathPoints ≠ [] then st.pathPoints ++ [click]
    else st.pathPoints
  { st with
    pathPoints := path1
    previewPath := []
    checkpoints := st.checkpoints ++ [path1.length - 1] }

/-- `undo_to_checkpoint`: with only the start checkpoint present the call is
a no-op.  Otherwise, when the path already sits exactly at the most recent
checkpoint that checkpoint is popped first, and the path is truncated to end
at the (now) most recent checkpoint.  The source's inner `if` guards are
always true under the outer guard, so they are folded away here. -/
def undoToCheckpoint (st : TraceState) : TraceState :=
  if st.checkpoints.length ≤ 1 then st
  else
    let lastCp := st.checkpoints.getLastD 0
    let cps :=
      if st.pathPoints.length ≤ lastCp + 1 then st.checkpoints.dropLast
      else st.checkpoints
    let keep := cps.getLastD 0
    let path := st.pathPoints.take (keep + 1)
    { st with
      pathPoints := path
      checkpoints := cps
      lastMapPoint := if path ≠ [] then path.getLast? else st.lastMapPoint }

/-! ## Committing: `save_to_layer`, spot heights, elevation prompt -/

/-- A committed output: either a polyline/ring written by `save_to_layer`
(`closed` rings are stored as a `LineString` whose first and last vertex
coincide) or a single spot-height point. -/
inductive Feature
  | polyline (pts : List Pt) (elev : ℚ)
  | spot (p : Pt) (elev : ℚ)
deriving Repr, DecidableEq

/-- `save_to_layer` for a fresh feature: paths of fewer than 2 points save
nothing; a closed path gets its first point appended once unless the ring is
already closed.  (The resume/merge branch updates an existing feature and is
gated behind the same non-`None` elevation as this path, so it is irrelevant
to the claims below, which concern `closed=True` saves and cancelled saves.) -/
def saveToLayer (path : List Pt) (closed : Bool) (elev : ℚ) : Option Feature :=
  if path.length < 2 then none
  else
    let pts :=
      if closed then
        if path.getLast? ≠ path.head? then path ++ path.take 1 else path
      else path
    some (.polyline pts elev)

/-- The right-click (and identical Enter-key) finish branch of the event
handlers: with at least 2 points the elevation dialog runs; a reply saves an
open line, a cancelled dialog saves nothing; the session resets either way.
`elevResp` is the dialog outcome (`none` = user cancelled). -/
def rightClickFinish (st : TraceState) (elevResp : Option ℚ) :
    Option Feature × TraceState :=
  if st.isTracing = false then (none, st)
  else
    let emitted :=
      if 2 ≤ st.pathPoints.length then
        match elevResp with
        | some e => saveToLayer st.pathPoints false e
        | none => none
      else none
    (emitted, resetState)

/-- The close branch of `canvasPressEvent` (click near the start point while
tracing).  A single-point path is a spot-height request; otherwise the
AI closing path (smoothed when longer than 2 points) is appended, a
duplicated endpoint is dropped, and the elevation dialog decides between a
closed save and a cancelled one.  The session resets in every case. -/
def closeLoopClick (st : TraceState) (closingRaw : List Pt)
    (elevResp : Option ℚ) : Option Feature × TraceState :=
  if st.pathPoints.length = 1 then
    let emitted :=
      match st.startPoint, elevResp with
      | some sp, some e => some (.spot sp e)
      | _, _ => none
    (emitted, resetState)
  else
    let closing :=
      if 2 < closingRaw.length then smoothBezier closingRaw false else closingRaw
    let ext := st.pathPoints ++ closing
    let ext2 :=
      if 1 < ext.length ∧ ext.getLast? = ext.head? then ext.dropLast else ext
    let emitted :=
      match elevResp with
      | some e => saveToLayer ext2 true e
      | none => none
    (emitted, resetState)

/-! ## Edge detection: `EdgeDetector` strategy dispatch and HED fallback -/

/-- The three detection strategies selectable in `EdgeDetector.__init__`. -/
inductive DetMethod
  | canny
  | lsd
  | hed
deriving Repr, DecidableEq

/-- The OpenCV / skimage calls the detector delegates to, modelled as opaque
deterministic functions over abstract image and mask types.  `hedForward`
covers blob preparation, `net.forward` and the post-processing of
`_detect_hed`, returning `none` when inference raises; `skeletonize` returns
`none` when thinning raises. -/
structure CVEnv (Img Mask : Type) where
  detectCanny : Img → ℕ → ℕ → Mask
  detectLSD : Img → Mask
  hedForward : Img → Option Mask
  skeletonize : Mask → Option Mask

/-- `_init_hed`: the network is loaded only when both model files exist and
`readNetFromCaffe` succeeds; otherwise `hed_net` stays `None` (`false`). -/
def initHed (filesExist loadOk : Bool) : Bool := filesExist && loadOk

/-- `_detect_hed`: with no loaded network, fall back to
`_detect_canny(gray)` at its default thresholds (30, 100); with a network,
a raised inference error also falls back to the same call. -/
def detectHed {Img Mask : Type} (env : CVEnv Img Mask) (hedNet : Bool)
    (img : Img) : Mask :=
  if hedNet = false then env.detectCanny img 30 100
  else
    match env.hedForward img with
    | some m => m
    | none => env.detectCanny img 30 100

/-- The skeletonization epilogue of `detect_edges`: thinning errors fall
back to the unthinned mask. -/
def skeletonPass {Img Mask : Type} (env : CVEnv Img Mask) (edges : Mask) :
    Mask :=
  match env.skeletonize edges with
  | some s => s
  | none => edges

/-- `EdgeDetector.detect_edges`: dispatch on the selected method, then
skeletonize with fallback. -/
def detectEdges {Img Mask : Type} (env : CVEnv Img Mask) (method : DetMethod)
    (hedNet : Bool) (img : Img) (low high : ℕ) : Mask :=
  let edges :=
    match method with
    | .canny => env.detectCanny img low high
    | .lsd => env.detectLSD img
    | .hed => detectHed env hedNet img
  skeletonPass env edges

/-! ## Cost field: `EdgeDetector.get_edge_cost_map` -/

/-- All pixel coordinates of a `w × h` grid. -/
def gridCells (w h : ℕ) : List (ℤ × ℤ) :=
  (List.range h).flatMap fun (y : ℕ) =>
    (List.range w).map fun (x : ℕ) => ((x : ℤ), (y : ℤ))

/-- The grid cells where the binary edge mask is set (value 255, i.e. a zero
pixel of the inverted image handed to `cv2.distanceTransform`). -/
def maskCells (w h : ℕ) (mask : ℤ × ℤ → Bool) : List (ℤ × ℤ) :=
  (gridCells w h).filter mask

/-- Squared Euclidean distance between two pixel coordinates. -/
def sqDist (p q : ℤ × ℤ) : ℤ := (p.1 - q.1) ^ 2 + (p.2 - q.2) ^ 2

/-- Minimum of a list of integers (`none` on the empty list). -/
def listMin : List ℤ → Option ℤ
  | [] => none
  | a :: rest =>
    match listMin rest with
    | none => some a
    | some m => some (min a m)

/-- Membership of `p` in the `w × h` grid. -/
def inGridP (w h : ℕ) (p : ℤ × ℤ) : Prop :=
  0 ≤ p.1 ∧ p.1 < (w : ℤ) ∧ 0 ≤ p.2 ∧ p.2 < (h : ℤ)

/-- Squared distance from `p` to the nearest mask-true cell. -/
def minSqDistToMask (w h : ℕ) (mask : ℤ × ℤ → Bool) (p : ℤ × ℤ) : Option ℤ :=
  listMin ((maskCells w h mask).map (sqDist p))

/-- `cv2.distanceTransform(invertedMask, DIST_L2, 5)` at cell `p`, modelled
by its documented behaviour: the Euclidean distance to the closest zero
pixel of the inverted mask, i.e. to the closest mask-true cell.  The library
leaves the value unspecified when no such cell exists; that case is excluded
by hypothesis wherever the value matters. -/
noncomputable def distTransform (w h : ℕ) (mask : ℤ × ℤ → Bool)
    (p : ℤ × ℤ) : ℝ :=
  match minSqDistToMask w h mask p with
  | some d => Real.sqrt (d : ℝ)
  | none => 0

/-- `EdgeDetector.get_edge_cost_map`: `multiplier = 0.1 + edge_weight * 0.9`
and `cost_map = 1.0 + dist * multiplier`. -/
noncomputable def getEdgeCostMap (w h : ℕ) (mask : ℤ × ℤ → Bool)
    (edgeWeight : ℝ) (p : ℤ × ℤ) : ℝ :=
  1 + distTransform w h mask p * (1 / 10 + edgeWeight * (9 / 10))

/-! ## Association lists for the Python dictionaries -/

/-- Dictionary lookup (`d.get(k)` / `k in d`): first entry with key `k`. -/
def alookup {α : Type} : List ((ℤ × ℤ) × α) → (ℤ × ℤ) → Option α
  | [], _ => none
  | e :: rest, k => if e.1 = k then some e.2 else alookup rest k

/-- Dictionary update (`d[k] = v`): replace the entry in place when the key
is present, append at the end otherwise (Python dicts keep insertion order
and append fresh keys at the end). -/
def aset {α : Type} : List ((ℤ × ℤ) × α) → (ℤ × ℤ) → α → List ((ℤ × ℤ) × α)
  | [], k, v => [(k, v)]
  | e :: rest, k, v => if e.1 = k then (k, v) :: rest else e :: aset rest k v

/-! ## A* searches

Both searches keep a `heapq` priority queue of `(priority, x, y)` tuples.
`heapq` always pops a smallest tuple under Python's lexicographic tuple
order, so the queue is modelled as a plain list whose pop removes the
lexicographically least entry. -/

/-- Python's tuple order on heap entries `(priority, x, y)`. -/
def entryLe (a b : ℝ × ℤ × ℤ) : Prop :=
  a.1 < b.1 ∨ (a.1 = b.1 ∧ (a.2.1 < b.2.1 ∨ (a.2.1 = b.2.1 ∧ a.2.2 ≤ b.2.2)))

section SearchDefs

open scoped Classical

/-- `heapq.heappop`: remove and return a least entry (the earliest one among
equals, which can only be exact duplicates). -/
noncomputable def popMin :
    List (ℝ × ℤ × ℤ) → Option ((ℝ × ℤ × ℤ) × List (ℝ × ℤ × ℤ))
  | [] => none
  | a :: rest =>
    match popMin rest with
    | none => some (a, [])
    | some (m, rest') =>
      if entryLe a m then some (a, rest) else some (m, a :: rest')

/-- The neighbour offset list shared verbatim by both searches. -/
def neighborOffsets : List (ℤ × ℤ) :=
  [(-1, 0), (1, 0), (0, -1), (0, 1), (-1, -1), (-1, 1), (1, -1), (1, 1)]

/-- `math.sqrt((end_px-nx)**2 + (end_py-ny)**2)`: the Euclidean heuristic. -/
noncomputable def heurDist (e n : ℤ × ℤ) : ℝ :=
  Real.sqrt (((e.1 - n.1) ^ 2 + (e.2 - n.2) ^ 2 : ℤ) : ℝ)

/-- The loop state of `SmartTraceTool.find_optimal_path`: priority queue,
`came_from`, `cost_so_far`, and the closest-approach tracking
(`best_node`, `min_dist_to_target`, the latter a Manhattan distance). -/
structure SearchState where
  pq : List (ℝ × ℤ × ℤ)
  came : List ((ℤ × ℤ) × (ℤ × ℤ))
  costSoFar : List ((ℤ × ℤ) × ℝ)
  best : Option (ℤ × ℤ)
  minDist : Option ℤ

/-- One neighbour relaxation of `find_optimal_path`: bounds check, move cost
1 or 1.414, `new_cost = cost_so_far[current] + edge_cost * move_cost`, and a
push when the node is fresh or improved. -/
noncomputable def relaxNeighbor (w h : ℤ) (cost : ℤ → ℤ → ℝ) (e cur : ℤ × ℤ)
    (st : SearchState) (d : ℤ × ℤ) : SearchState :=
  let n : ℤ × ℤ := (cur.1 + d.1, cur.2 + d.2)
  if 0 ≤ n.1 ∧ n.1 < w ∧ 0 ≤ n.2 ∧ n.2 < h then
    let moveCost : ℝ := if d.1 ≠ 0 ∧ d.2 ≠ 0 then 1.414 else 1
    let newCost : ℝ := (alookup st.costSoFar cur).getD 0 + cost n.1 n.2 * moveCost
    let push : SearchState :=
      { st with
        costSoFar := aset st.costSoFar n newCost
        pq := (newCost + heurDist e n, n.1, n.2) :: st.pq
        came := aset st.came n cur }
    match alookup st.costSoFar n with
    | none => push
    | some old => if newCost < old then push else st
  else st

/-- The while loop of `find_optimal_path`.  The fuel argument is the
remaining iteration budget (`max_iter` minus the pops already performed):
the source increments `iter_count` and breaks once it exceeds `max_iter`, so
exactly `max_iter` pops can happen.  Each pop updates the closest-approach
tracking, stops successfully on the goal, and otherwise relaxes the 8
neighbours in order.  Returns the final state and the `found` flag. -/
noncomputable def searchLoop (w h : ℤ) (cost : ℤ → ℤ → ℝ) (e : ℤ × ℤ) :
    ℕ → SearchState → SearchState × Bool
  | 0, st => (st, false)
  | fuel + 1, st =>
    match popMin st.pq with
    | none => (st, false)
    | some (top, rest) =>
      let cur : ℤ × ℤ := (top.2.1, top.2.2)
      let st1 := { st with pq := rest }
      let d := |e.1 - cur.1| + |e.2 - cur.2|
      let st2 :=
        match st1.minDist with
        | none => { st1 with best := some cur, minDist := some d }
        | some m =>
          if d < m then { st1 with best := some cur, minDist := some d } else st1
      if cur = e then (st2, true)
      else
        searchLoop w h cost e fuel
          (neighborOffsets.foldl (relaxNeighbor w h cost e cur) st2)

/-- The path-reconstruction loop: append nodes while following `came_from`,
stopping (without appending) at `start` or when a predecessor is missing.
With cell costs ≥ 1 the predecessor chain strictly decreases in accumulated
cost and cannot cycle, so the fuel bound `came.length + 1` is never the
reason the walk stops. -/
def walkBack (came : List ((ℤ × ℤ) × (ℤ × ℤ))) (s : ℤ × ℤ) :
    ℕ → (ℤ × ℤ) → List (ℤ × ℤ)
  | 0, _ => []
  | fuel + 1, cur =>
    if cur = s then []
    else
      cur ::
        (match alookup came cur with
         | none => []
         | some p => walkBack came s fuel p)

/-- `max(lo, min(hi, v))`, the clamping applied to both endpoints. -/
def clampI (lo hi v : ℤ) : ℤ := max lo (min hi v)

/-- The observable outcome of `find_optimal_path` at pixel level: the
reconstructed pixel path (later 5-point-averaged and converted pointwise to
map coordinates, which preserves emptiness and length), or `none` for the
straight-segment fallback `return [target_point]`; `timedOut` records
whether the closest-approach fallback branch ran (the branch that pushes the
"Pathfinding timeout" message). -/
structure PathResult where
  path : Option (List (ℤ × ℤ))
  timedOut : Bool

/-- The post-loop dispatch of `find_optimal_path`: reconstruct from the
goal when found, from the best-effort node on a timeout (with the timeout
notice), and fall back to the straight segment (`none` here) otherwise. -/
def assemblePath (s e : ℤ × ℤ) (res : SearchState × Bool) : PathResult :=
  match res.2, res.1.best with
  | true, _ =>
    ⟨some ((walkBack res.1.came s (res.1.came.length + 1) e).reverse), false⟩
  | false, some b =>
    ⟨some ((walkBack res.1.came s (res.1.came.length + 1) b).reverse), true⟩
  | false, none => ⟨none, false⟩

/-- `SmartTraceTool.find_optimal_path`, pixel level: clamp both endpoints,
compute `max_iter = max(100000, manhattan * 500)`, run the A* loop, and
reconstruct either from the goal (found) or from the best-effort node
(budget exhausted), in which case the timeout notice fires. -/
noncomputable def findOptimalPathPixels (w h : ℤ) (cost : ℤ → ℤ → ℝ)
    (startRaw endRaw : ℤ × ℤ) : PathResult :=
  let s : ℤ × ℤ := (clampI 0 (w - 1) startRaw.1, clampI 0 (h - 1) startRaw.2)
  let e : ℤ × ℤ := (clampI 0 (w - 1) endRaw.1, clampI 0 (h - 1) endRaw.2)
  let manhattan := |e.1 - s.1| + |e.2 - s.2|
  let maxIter := (max 100000 (manhattan * 500)).toNat
  let st0 : SearchState := ⟨[((0 : ℝ), s.1, s.2)], [], [(s, 0)], none, none⟩
  assemblePath s e (searchLoop w h cost e maxIter st0)

end SearchDefs

/-! ## `PathFinder.find_path` (`core/path_finder.py`) -/

namespace PF

/-- The loop state of `PathFinder.find_path`: frontier entries are
`(priority, (row, col))`, flattened here to `(priority, row, col)` (the
tuple orders agree). -/
structure PFState where
  frontier : List (ℝ × ℤ × ℤ)
  came : List ((ℤ × ℤ) × (ℤ × ℤ))
  costSoFar : List ((ℤ × ℤ) × ℝ)

section PFDefs

open scoped Classical

/-- One neighbour relaxation of `find_path`:
`new_cost = cost_so_far[current] + move_cost * node_cost`. -/
noncomputable def relaxPF (rows cols : ℤ) (costMap : ℤ → ℤ → ℝ)
    (e cur : ℤ × ℤ) (st : PFState) (d : ℤ × ℤ) : PFState :=
  let n : ℤ × ℤ := (cur.1 + d.1, cur.2 + d.2)
  if 0 ≤ n.1 ∧ n.1 < rows ∧ 0 ≤ n.2 ∧ n.2 < cols then
    let moveCost : ℝ := if d.1 ≠ 0 ∧ d.2 ≠ 0 then 1.414 else 1
    let newCost : ℝ :=
      (alookup st.costSoFar cur).getD 0 + moveCost * costMap n.1 n.2
    let push : PFState :=
      { st with
        costSoFar := aset st.costSoFar n newCost
        came := aset st.came n cur
        frontier := (newCost + heurDist e n, n.1, n.2) :: st.frontier }
    match alookup st.costSoFar n with
    | none => push
    | some old => if newCost < old then push else st
  else st

/-- The while loop of `find_path`: `max_steps = 50000` pops, exact-goal
test after the pop, no closest-approach tracking. -/
noncomputable def loopPF (rows cols : ℤ) (costMap : ℤ → ℤ → ℝ) (e : ℤ × ℤ) :
    ℕ → PFState → PFState × Bool
  | 0, st => (st, false)
  | fuel + 1, st =>
    match popMin st.frontier with
    | none => (st, false)
    | some (top, rest) =>
      let cur : ℤ × ℤ := (top.2.1, top.2.2)
      let st1 := { st with frontier := rest }
      if cur = e then (st1, true)
      else
        loopPF rows cols costMap e fuel
          (neighborOffsets.foldl (relaxPF rows cols costMap e cur) st1)

/-- The reconstruction loop of `find_path`: collect nodes from the goal back
to (but excluding) the start; a missing predecessor would raise a `KeyError`
in the source, modelled as `none` (it cannot occur on a found goal). -/
def walkToStart (came : List ((ℤ × ℤ) × (ℤ × ℤ))) (s : ℤ × ℤ) :
    ℕ → (ℤ × ℤ) → Option (List (ℤ × ℤ))
  | 0, _ => none
  | fuel + 1, cur =>
    if cur = s then some []
    else
      match alookup came cur with
      | none => none
      | some p => (walkToStart came s fuel p).map (cur :: ·)

/-- `PathFinder.find_path`: `(x, y)` inputs are swapped to `(row, col)`,
there is no clamping, the search runs with a 50000-pop budget, and on
success the path is rebuilt from the goal, the start appended, coordinates
swapped back and the list reversed; on failure the empty list is returned. -/
noncomputable def findPath (startPt endPt : ℤ × ℤ) (rows cols : ℤ)
    (costMap : ℤ → ℤ → ℝ) : Option (List (ℤ × ℤ)) :=
  let s : ℤ × ℤ := (startPt.2, startPt.1)
  let e : ℤ × ℤ := (endPt.2, endPt.1)
  let st0 : PFState := ⟨[((0 : ℝ), s.1, s.2)], [], [(s, 0)]⟩
  let res := loopPF rows cols costMap e 50000 st0
  if res.2 then
    (walkToStart res.1.came s (res.1.came.length + 1) e).map
      (fun l => ((l.map fun q => (q.2, q.1)) ++ [(s.2, s.1)]).reverse)
  else some []

end PFDefs

end PF

/-! ## Helper lemmas: lists and session bookkeeping -/

theorem flatMap_chaikin_length (f : ℕ → List Pt) (m : ℕ)
    (hf : ∀ i, (f i).length = 2) :
    ((List.range m).flatMap f).length = 2 * m := by
  induction m with
  | zero => simp
  | succ n ih =>
    rw [List.range_succ, List.flatMap_append, List.length_append, ih]
    simp [hf]
    ring

theorem chaikinStep_true_length (pts : List Pt) :
    (chaikinStep true pts).length = 2 * pts.length := by
  have hb := flatMap_chaikin_length
    (fun i => chaikinPair (pts.getD i (0, 0)) (pts.getD ((i + 1) % pts.length) (0, 0)))
    pts.length (fun i => by simp [chaikinPair])
  simpa [chaikinStep] using hb

theorem chaikinStep_false_length (pts : List Pt) (h : pts ≠ []) :
    (chaikinStep false pts).length = 2 * pts.length := by
  have hb := flatMap_chaikin_length
    (fun i => chaikinPair (pts.getD i (0, 0)) (pts.getD ((i + 1) % pts.length) (0, 0)))
    (pts.length - 1) (fun i => by simp [chaikinPair])
  have h1 : 0 < pts.length := List.length_pos.mpr h
  have h2 : pts.getLast?.toList.length = 1 := by
    rcases List.exists_cons_of_ne_nil h with ⟨a, t, rfl⟩
    cases hl : (a :: t).getLast? with
    | none => exact absurd (List.getLast?_eq_none_iff.mp hl) (by simp)
    | some x => simp
  unfold chaikinStep
  simp only [Bool.false_eq_true, if_false, List.length_append, hb,
    List.length_take, h2]
  omega

theorem chaikinGuard_false_length (pts : List Pt) (h : 3 ≤ pts.length) :
    (chaikinGuard false pts).length = 2 * pts.length := by
  have hne : pts ≠ [] := by
    intro he; rw [he] at h; simp at h
  unfold chaikinGuard
  rw [if_neg (by omega), chaikinStep_false_length pts hne]

theorem smoothBezier_false_length (pts : List Pt) (h : 3 ≤ pts.length) :
    (smoothBezier pts false).length = 8 * pts.length := by
  have l1 := chaikinGuard_false_length pts h
  have l2 := chaikinGuard_false_length (chaikinGuard false pts) (by omega)
  have l3 := chaikinGuard_false_length (chaikinGuard false (chaikinGuard false pts))
    (by omega)
  unfold smoothBezier
  rw [if_neg (by omega), l3, l2, l1]
  ring

theorem saveToLayer_closed_ring (path : List Pt) (e : ℚ)
    (h : 2 ≤ path.length) :
    ∃ r, saveToLayer path true e = some (.polyline r e) ∧
      r.head? = r.getLast? ∧ r ≠ [] := by
  obtain ⟨p0, t, rfl⟩ : ∃ p0 t, path = p0 :: t := by
    cases path with
    | nil => simp at h
    | cons a t => exact ⟨a, t, rfl⟩
  unfold saveToLayer
  rw [if_neg (by omega)]
  by_cases hc : (p0 :: t).getLast? ≠ (p0 :: t).head?
  · refine ⟨(p0 :: t) ++ (p0 :: t).take 1, ?_, ?_, by simp⟩
    · simp only [if_pos hc]
      simp
    · rw [List.take_succ_cons, List.take_zero]
      rw [show p0 :: t ++ [p0] = (p0 :: t) ++ [p0] from rfl, List.getLast?_concat]
      simp
  · push_neg at hc
    refine ⟨p0 :: t, ?_, ?_, by simp⟩
    · simp [hc]
    · simp [hc]

/-! ## Claim theorems -/

/-- C9: the claim says the smoothed result is down-sampled by uniform index
selection to at most 100 vertices.  The subsampling code sits after the
`return` statement of `smooth_bezier` and never executes: a 13-point open
input comes back with `8 * 13 = 104 > 100` vertices. -/
theorem c9_smoothBezier_exceeds_vertex_bound :
    (smoothBezier (List.replicate 13 ((0 : ℚ), (0 : ℚ))) false).length = 104 ∧
      100 < (smoothBezier (List.replicate 13 ((0 : ℚ), (0 : ℚ))) false).length := by
  have hlen : (List.replicate 13 ((0 : ℚ), (0 : ℚ))).length = 13 :=
    List.length_replicate ..
  have h := smoothBezier_false_length (List.replicate 13 ((0 : ℚ), (0 : ℚ)))
    (by omega)
  rw [hlen] at h
  omega

/-- C10: cancelling the elevation prompt at a right-click/Enter finish, a
polygon close, or a single-point spot-height commit emits no feature of any
kind, and the whole session state is reset. -/
theorem c10_elevation_cancel_emits_nothing (st : TraceState)
    (closingRaw : List Pt) (h : st.isTracing = true) :
    rightClickFinish st none = (none, resetState) ∧
    closeLoopClick st closingRaw none = (none, resetState) := by
  constructor
  · unfold rightClickFinish
    rw [if_neg (by simp [h])]
    simp
  · unfold closeLoopClick
    by_cases hl : st.pathPoints.length = 1
    · rw [if_pos hl]
      cases st.startPoint <;> simp
    · rw [if_neg hl]

/-- Witness for C10 at a freshly started session. -/
theorem c10_witness :
    (startTracing ((0 : ℚ), (0 : ℚ))).isTracing = true ∧
    rightClickFinish (startTracing ((0 : ℚ), (0 : ℚ))) none = (none, resetState) ∧
    closeLoopClick (startTracing ((0 : ℚ), (0 : ℚ))) [] none = (none, resetState) :=
  ⟨rfl, (c10_elevation_cancel_emits_nothing (startTracing ((0 : ℚ), (0 : ℚ))) [] rfl).1,
    (c10_elevation_cancel_emits_nothing (startTracing ((0 : ℚ), (0 : ℚ))) [] rfl).2⟩

/-- C7: closing a loop with at least 3 confirmed points (and a completed
elevation prompt) saves a ring whose first and last coordinates coincide. -/
theorem c7_close_saves_ring (st : TraceState) (closingRaw : List Pt) (e : ℚ)
    (hlen : 3 ≤ st.pathPoints.length) :
    ∃ r, (closeLoopClick st closingRaw (some e)).1 = some (.polyline r e) ∧
      r.head? = r.getLast? ∧ r ≠ [] := by
  unfold closeLoopClick
  rw [if_neg (by omega)]
  set closing :=
    if 2 < closingRaw.length then smoothBezier closingRaw false else closingRaw with hcl
  set ext := st.pathPoints ++ closing with hext
  have hext3 : 3 ≤ ext.length := by
    rw [hext, List.length_append]; omega
  set ext2 := if 1 < ext.length ∧ ext.getLast? = ext.head? then ext.dropLast else ext
    with hext2
  have hext22 : 2 ≤ ext2.length := by
    rw [hext2]
    split
    · rw [List.length_dropLast]; omega
    · omega
  exact saveToLayer_closed_ring ext2 e hext22

/-- Witness for C7 at a 3-point path. -/
theorem c7_witness :
    3 ≤ ({ startTracing ((0 : ℚ), (0 : ℚ)) with
            pathPoints := [(0, 0), (1, 0), (1, 1)] } : TraceState).pathPoints.length ∧
    ∃ r,
      (closeLoopClick
          ({ startTracing ((0 : ℚ), (0 : ℚ)) with
              pathPoints := [(0, 0), (1, 0), (1, 1)] }) [] (some 5)).1
          = some (.polyline r 5) ∧
        r.head? = r.getLast? ∧ r ≠ [] :=
  ⟨by decide,
    c7_close_saves_ring
      ({ startTracing ((0 : ℚ), (0 : ℚ)) with pathPoints := [(0, 0), (1, 0), (1, 1)] })
      [] 5 (by decide)⟩

/-- C8: if the dense neural edge model is selected but its weights are
unavailable (`hed_net is None`) or inference raises, `detect_edges` silently
produces exactly the adaptive-threshold (Canny) strategy's result; missing
weight files always leave the network unloaded. -/
theorem c8_hed_falls_back_to_canny {Img Mask : Type} (env : CVEnv Img Mask)
    (hedNet : Bool) (img : Img)
    (h : hedNet = false ∨ env.hedForward img = none) :
    detectEdges env .hed hedNet img 30 100 = detectEdges env .canny hedNet img 30 100 ∧
    ∀ loadOk : Bool, initHed false loadOk = false := by
  refine ⟨?_, fun loadOk => rfl⟩
  unfold detectEdges detectHed
  rcases h with h | h
  · rw [h]
    simp
  · cases hb : hedNet
    · simp
    · rw [h]
      simp

/-- A concrete backend instantiation used to witness C8. -/
def cvEnvNoHed : CVEnv Unit Bool :=
  { detectCanny := fun _ _ _ => true
    detectLSD := fun _ => false
    hedForward := fun _ => none
    skeletonize := fun _ => none }

/-- Witness for C8: inference always failing on a concrete backend. -/
theorem c8_witness :
    cvEnvNoHed.hedForward () = none ∧
    detectEdges cvEnvNoHed .hed true () 30 100
        = detectEdges cvEnvNoHed .canny true () 30 100 ∧
    ∀ loadOk : Bool, initHed false loadOk = false :=
  ⟨rfl, (c8_hed_falls_back_to_canny cvEnvNoHed true () (Or.inr rfl)).1,
    (c8_hed_falls_back_to_canny cvEnvNoHed true () (Or.inr rfl)).2⟩

/-! ### Chaikin indexing and endpoint lemmas (towards C6) -/

theorem flatMap_pairs_getElem (f g : ℕ → Pt) (m i : ℕ) (h : i < m) :
    ((List.range m).flatMap fun j => [f j, g j])[2 * i]? = some (f i) ∧
    ((List.range m).flatMap fun j => [f j, g j])[2 * i + 1]? = some (g i) := by
  induction m with
  | zero => omega
  | succ n ih =>
    rw [List.range_succ, List.flatMap_append]
    have hlen : ((List.range n).flatMap fun j => [f j, g j]).length = 2 * n :=
      flatMap_chaikin_length (fun j => [f j, g j]) n (fun _ => rfl)
    by_cases hi : i < n
    · have hij := ih hi
      constructor
      · rw [List.getElem?_append, if_pos (by rw [hlen]; omega)]
        exact hij.1
      · rw [List.getElem?_append, if_pos (by rw [hlen]; omega)]
        exact hij.2
    · have hieq : i = n := by omega
      subst hieq
      constructor
      · rw [List.getElem?_append, if_neg (by rw [hlen]; omega), hlen]
        simp
      · rw [List.getElem?_append, if_neg (by rw [hlen]; omega), hlen]
        rw [Nat.add_sub_cancel_left]
        simp

theorem chaikinStep_false_getElem (pts : List Pt) (i : ℕ)
    (h3 : 3 ≤ pts.length) (hi : i < pts.length - 1) :
    (chaikinStep false pts)[1 + 2 * i]? =
        some (qpt (pts.getD i (0, 0)) (pts.getD (i + 1) (0, 0))) ∧
      (chaikinStep false pts)[2 + 2 * i]? =
        some (rpt (pts.getD i (0, 0)) (pts.getD (i + 1) (0, 0))) := by
  obtain ⟨a, t, rfl⟩ : ∃ a t, pts = a :: t := by
    cases pts with
    | nil => simp at h3
    | cons a t => exact ⟨a, t, rfl⟩
  have hmod : ∀ j, j < (a :: t).length - 1 →
      (j + 1) % (a :: t).length = j + 1 := by
    intro j hj
    exact Nat.mod_eq_of_lt (by omega)
  have hpair := flatMap_pairs_getElem
    (fun j => qpt ((a :: t).getD j (0, 0)) ((a :: t).getD ((j + 1) % (a :: t).length) (0, 0)))
    (fun j => rpt ((a :: t).getD j (0, 0)) ((a :: t).getD ((j + 1) % (a :: t).length) (0, 0)))
    ((a :: t).length - 1) i hi
  have hlen : (((List.range ((a :: t).length - 1)).flatMap fun j =>
      [qpt ((a :: t).getD j (0, 0)) ((a :: t).getD ((j + 1) % (a :: t).length) (0, 0)),
       rpt ((a :: t).getD j (0, 0)) ((a :: t).getD ((j + 1) % (a :: t).length) (0, 0))])).length
      = 2 * ((a :: t).length - 1) :=
    flatMap_chaikin_length _ _ (fun _ => rfl)
  simp only at hpair
  unfold chaikinStep
  simp only [Bool.false_eq_true, if_false, chaikinPair, List.take_succ_cons,
    List.take_zero]
  rw [List.append_assoc]
  simp only [List.singleton_append]
  constructor
  · rw [show 1 + 2 * i = 2 * i + 1 from by omega, List.getElem?_cons_succ]
    rw [List.getElem?_append, if_pos (by rw [hlen]; omega)]
    rw [hpair.1, hmod i hi]
  · rw [show 2 + 2 * i = (2 * i + 1) + 1 from by omega, List.getElem?_cons_succ]
    rw [List.getElem?_append, if_pos (by rw [hlen]; omega)]
    rw [hpair.2, hmod i hi]

theorem chaikinStep_true_getElem (pts : List Pt) (i : ℕ) (hi : i < pts.length) :
    (chaikinStep true pts)[2 * i]? =
        some (qpt (pts.getD i (0, 0)) (pts.getD ((i + 1) % pts.length) (0, 0))) ∧
      (chaikinStep true pts)[2 * i + 1]? =
        some (rpt (pts.getD i (0, 0)) (pts.getD ((i + 1) % pts.length) (0, 0))) := by
  have hpair := flatMap_pairs_getElem
    (fun j => qpt (pts.getD j (0, 0)) (pts.getD ((j + 1) % pts.length) (0, 0)))
    (fun j => rpt (pts.getD j (0, 0)) (pts.getD ((j + 1) % pts.length) (0, 0)))
    pts.length i hi
  unfold chaikinStep
  simp only [if_pos rfl, chaikinPair]
  exact hpair

theorem chaikinStep_false_head (pts : List Pt) (h : pts ≠ []) :
    (chaikinStep false pts).head? = pts.head? := by
  obtain ⟨a, t, rfl⟩ := List.exists_cons_of_ne_nil h
  unfold chaikinStep
  simp

theorem chaikinStep_false_getLast (pts : List Pt) (h : pts ≠ []) :
    (chaikinStep false pts).getLast? = pts.getLast? := by
  have hx : ∃ x, pts.getLast? = some x := by
    obtain ⟨a, t, rfl⟩ := List.exists_cons_of_ne_nil h
    cases hl : (a :: t).getLast? with
    | none => exact absurd (List.getLast?_eq_none_iff.mp hl) (by simp)
    | some x => exact ⟨x, rfl⟩
  obtain ⟨x, hx⟩ := hx
  unfold chaikinStep
  simp only [Bool.false_eq_true, if_false, hx, Option.toList_some]
  rw [List.append_assoc, ← List.append_assoc, List.getLast?_concat]

theorem chaikinGuard_false_head (pts : List Pt) (h : 3 ≤ pts.length) :
    (chaikinGuard false pts).head? = pts.head? := by
  unfold chaikinGuard
  rw [if_neg (by omega)]
  exact chaikinStep_false_head pts (by intro he; rw [he] at h; simp at h)

theorem chaikinGuard_false_getLast (pts : List Pt) (h : 3 ≤ pts.length) :
    (chaikinGuard false pts).getLast? = pts.getLast? := by
  unfold chaikinGuard
  rw [if_neg (by omega)]
  exact chaikinStep_false_getLast pts (by intro he; rw [he] at h; simp at h)

theorem smoothBezier_false_endpoints (pts : List Pt) (h : 3 ≤ pts.length) :
    (smoothBezier pts false).head? = pts.head? ∧
      (smoothBezier pts false).getLast? = pts.getLast? := by
  have l1 := chaikinGuard_false_length pts h
  have h2 : 3 ≤ (chaikinGuard false pts).length := by omega
  have l2 := chaikinGuard_false_length _ h2
  have h3 : 3 ≤ (chaikinGuard false (chaikinGuard false pts)).length := by omega
  unfold smoothBezier
  rw [if_neg (by omega)]
  constructor
  · rw [chaikinGuard_false_head _ h3, chaikinGuard_false_head _ h2,
      chaikinGuard_false_head _ h]
  · rw [chaikinGuard_false_getLast _ h3, chaikinGuard_false_getLast _ h2,
      chaikinGuard_false_getLast _ h]

/-- C6: for an open input of at least 3 points, each Chaikin pass writes,
for segment `i`, the blends `0.75*p0 + 0.25*p1` and `0.25*p0 + 0.75*p1` at
output positions `1 + 2i` and `2 + 2i`, and the first/last input points
survive all three passes of `smooth_bezier` unchanged; for a closed input
every vertex `i` contributes uniformly with its cyclic successor, with no
preserved endpoint slots. -/
theorem c6_chaikin_segments_and_endpoints (pts : List Pt)
    (h3 : 3 ≤ pts.length) :
    ((smoothBezier pts false).head? = pts.head? ∧
      (smoothBezier pts false).getLast? = pts.getLast?) ∧
    (∀ i, i < pts.length - 1 →
      (chaikinStep false pts)[1 + 2 * i]? =
        some (3 / 4 * (pts.getD i (0, 0)).1 + 1 / 4 * (pts.getD (i + 1) (0, 0)).1,
          3 / 4 * (pts.getD i (0, 0)).2 + 1 / 4 * (pts.getD (i + 1) (0, 0)).2) ∧
      (chaikinStep false pts)[2 + 2 * i]? =
        some (1 / 4 * (pts.getD i (0, 0)).1 + 3 / 4 * (pts.getD (i + 1) (0, 0)).1,
          1 / 4 * (pts.getD i (0, 0)).2 + 3 / 4 * (pts.getD (i + 1) (0, 0)).2)) ∧
    ((chaikinStep true pts).length = 2 * pts.length ∧
      ∀ i, i < pts.length →
        (chaikinStep true pts)[2 * i]? =
          some (3 / 4 * (pts.getD i (0, 0)).1 +
              1 / 4 * (pts.getD ((i + 1) % pts.length) (0, 0)).1,
            3 / 4 * (pts.getD i (0, 0)).2 +
              1 / 4 * (pts.getD ((i + 1) % pts.length) (0, 0)).2) ∧
        (chaikinStep true pts)[2 * i + 1]? =
          some (1 / 4 * (pts.getD i (0, 0)).1 +
              3 / 4 * (pts.getD ((i + 1) % pts.length) (0, 0)).1,
            1 / 4 * (pts.getD i (0, 0)).2 +
              3 / 4 * (pts.getD ((i + 1) % pts.length) (0, 0)).2)) := by
  refine ⟨smoothBezier_false_endpoints pts h3, fun i hi => ?_,
    chaikinStep_true_length pts, fun i hi => ?_⟩
  · have hidx := chaikinStep_false_getElem pts i h3 hi
    constructor
    · rw [hidx.1]
      simp only [qpt, Option.some.injEq, Prod.mk.injEq]
      constructor <;> ring
    · rw [hidx.2]
      simp only [rpt, Option.some.injEq, Prod.mk.injEq]
      constructor <;> ring
  · have hidx := chaikinStep_true_getElem pts i hi
    constructor
    · rw [hidx.1]
      simp only [qpt, Option.some.injEq, Prod.mk.injEq]
      constructor <;> ring
    · rw [hidx.2]
      simp only [rpt, Option.some.injEq, Prod.mk.injEq]
      constructor <;> ring

/-- Witness for C6 at a concrete 3-point polyline. -/
theorem c6_witness :
    3 ≤ ([((0 : ℚ), (0 : ℚ)), (1, 0), (0, 1)] : List Pt).length ∧
    (smoothBezier [((0 : ℚ), (0 : ℚ)), (1, 0), (0, 1)] false).head? =
        ([((0 : ℚ), (0 : ℚ)), (1, 0), (0, 1)] : List Pt).head? ∧
    (smoothBezier [((0 : ℚ), (0 : ℚ)), (1, 0), (0, 1)] false).getLast? =
        ([((0 : ℚ), (0 : ℚ)), (1, 0), (0, 1)] : List Pt).getLast? ∧
    (chaikinStep true [((0 : ℚ), (0 : ℚ)), (1, 0), (0, 1)]).length = 6 :=
  ⟨by decide,
    (c6_chaikin_segments_and_endpoints
      [((0 : ℚ), (0 : ℚ)), (1, 0), (0, 1)] (by decide)).1.1,
    (c6_chaikin_segments_and_endpoints
      [((0 : ℚ), (0 : ℚ)), (1, 0), (0, 1)] (by decide)).1.2,
    (c6_chaikin_segments_and_endpoints
      [((0 : ℚ), (0 : ℚ)), (1, 0), (0, 1)] (by decide)).2.2.1⟩

/-! ### Session action sequences (towards C5) -/

/-- The session events relevant to the undo claims. -/
inductive TraceAct
  | confirm (click : Pt)
  | hover (preview : List Pt)
  | drag (p : Pt)
  | undo

/-- Dispatch one event to its handler. -/
def applyAct (st : TraceState) : TraceAct → TraceState
  | .confirm c => confirmClick st c
  | .hover pv => hoverPreview st pv
  | .drag p => dragAppend st p
  | .undo => undoToCheckpoint st

/-- Run a sequence of session events. -/
def applyActs (st : TraceState) (l : List TraceAct) : TraceState :=
  l.foldl applyAct st

/-- `n` undo-to-checkpoint actions in a row. -/
def undoN : ℕ → TraceState → TraceState
  | 0, st => st
  | n + 1, st => undoToCheckpoint (undoN n st)

/-- One confirm interaction: the hover stores the computed preview, the
following left click commits it. -/
def doConfirm (st : TraceState) (pc : List Pt × Pt) : TraceState :=
  confirmClick (hoverPreview st pc.1) pc.2

/-- A sequence of confirm interactions. -/
def doConfirms (st : TraceState) (l : List (List Pt × Pt)) : TraceState :=
  l.foldl doConfirm st

/-- The points a confirm appends: the whole preview when one is shown,
otherwise the click point. -/
def confirmAppend (pc : List Pt × Pt) : List Pt :=
  if pc.1 ≠ [] then pc.1 else [pc.2]

/-- Invariant of a session that has started at `s`: the path is non-empty,
starts at `s`, and checkpoint 0 is the first checkpoint. -/
def SessionInv (s : Pt) (st : TraceState) : Prop :=
  st.pathPoints ≠ [] ∧ st.pathPoints.head? = some s ∧
    st.checkpoints.head? = some 0

/-- The path sits exactly at the most recent checkpoint. -/
def AtCheckpoint (st : TraceState) : Prop :=
  st.pathPoints ≠ [] ∧ st.checkpoints ≠ [] ∧
    st.checkpoints.getLastD 0 + 1 = st.pathPoints.length

theorem doConfirm_eq (st : TraceState) (pc : List Pt × Pt)
    (hP : st.pathPoints ≠ []) :
    doConfirm st pc =
      { st with
        pathPoints := st.pathPoints ++ confirmAppend pc
        previewPath := []
        checkpoints := st.checkpoints ++
          [(st.pathPoints ++ confirmAppend pc).length - 1] } := by
  unfold doConfirm confirmClick hoverPreview confirmAppend
  by_cases hpv : pc.1 = []
  · simp [hpv, hP]
  · simp [hpv]

theorem undo_after_append (st : TraceState) (A : List Pt) (hA : A ≠ [])
    (hP : st.pathPoints ≠ []) (hC : st.checkpoints ≠ [])
    (hAt : st.checkpoints.getLastD 0 + 1 = st.pathPoints.length) :
    (undoToCheckpoint
        { st with
          pathPoints := st.pathPoints ++ A
          previewPath := []
          checkpoints := st.checkpoints ++
            [(st.pathPoints ++ A).length - 1] }).pathPoints = st.pathPoints ∧
    (undoToCheckpoint
        { st with
          pathPoints := st.pathPoints ++ A
          previewPath := []
          checkpoints := st.checkpoints ++
            [(st.pathPoints ++ A).length - 1] }).checkpoints = st.checkpoints := by
  obtain ⟨tr, pp, pv, cps, sp, lmp⟩ := st
  simp only [] at hP hC hAt ⊢
  have hC1 : 0 < cps.length := List.length_pos.mpr hC
  have hP1 : 0 < pp.length := List.length_pos.mpr hP
  have hA1 : 0 < A.length := List.length_pos.mpr hA
  have hlen : (pp ++ A).length = pp.length + A.length := List.length_append pp A
  unfold undoToCheckpoint
  simp only []
  rw [if_neg (by simp only [List.length_append, List.length_singleton]; omega)]
  rw [List.getLastD_concat]
  rw [if_pos (by omega)]
  rw [List.dropLast_concat]
  constructor
  · simp only []
    rw [hAt]
    exact List.take_left pp A
  · rfl

theorem atCheckpoint_doConfirm (st : TraceState) (pc : List Pt × Pt)
    (h : AtCheckpoint st) : AtCheckpoint (doConfirm st pc) := by
  obtain ⟨hP, hC, hAt⟩ := h
  rw [doConfirm_eq st pc hP]
  have hA : confirmAppend pc ≠ [] := by
    unfold confirmAppend
    split <;> simp_all
  have hA1 : 0 < (confirmAppend pc).length := List.length_pos.mpr hA
  have hP1 : 0 < st.pathPoints.length := List.length_pos.mpr hP
  refine ⟨by simp [hP], by simp, ?_⟩
  simp only [List.getLastD_concat, List.length_append]
  omega

theorem undo_proj_congr (st st' : TraceState)
    (hp : st.pathPoints = st'.pathPoints)
    (hc : st.checkpoints = st'.checkpoints) :
    (undoToCheckpoint st).pathPoints = (undoToCheckpoint st').pathPoints ∧
    (undoToCheckpoint st).checkpoints = (undoToCheckpoint st').checkpoints := by
  unfold undoToCheckpoint
  rw [hp, hc]
  by_cases hcond : st'.checkpoints.length ≤ 1
  · rw [if_pos hcond, if_pos hcond]
    exact ⟨hp, hc⟩
  · rw [if_neg hcond, if_neg hcond]
    exact ⟨rfl, rfl⟩

theorem undoN_doConfirms (l : List (List Pt × Pt)) :
    ∀ st : TraceState, AtCheckpoint st →
      (undoN l.length (doConfirms st l)).pathPoints = st.pathPoints ∧
      (undoN l.length (doConfirms st l)).checkpoints = st.checkpoints := by
  induction l with
  | nil => exact fun st _ => ⟨rfl, rfl⟩
  | cons pc rest ih =>
    intro st h
    have h1 := atCheckpoint_doConfirm st pc h
    have hrest := ih (doConfirm st pc) h1
    have hfold : doConfirms st (pc :: rest) = doConfirms (doConfirm st pc) rest := rfl
    have hN : undoN (pc :: rest).length (doConfirms st (pc :: rest)) =
        undoToCheckpoint (undoN rest.length (doConfirms (doConfirm st pc) rest)) := by
      rw [hfold]
      rfl
    rw [hN]
    have hcong := undo_proj_congr
      (undoN rest.length (doConfirms (doConfirm st pc) rest)) (doConfirm st pc)
      hrest.1 hrest.2
    obtain ⟨hP, hC, hAt⟩ := h
    have hfinal := undo_after_append st (confirmAppend pc)
      (by unfold confirmAppend; split <;> simp_all) hP hC hAt
    rw [← doConfirm_eq st pc hP] at hfinal
    exact ⟨hcong.1.trans hfinal.1, hcong.2.trans hfinal.2⟩

theorem sessionInv_preserved (s : Pt) (st : TraceState) (a : TraceAct)
    (h : SessionInv s st) : SessionInv s (applyAct st a) := by
  obtain ⟨hP, hH, hC0⟩ := h
  obtain ⟨p0, t, hpt⟩ : ∃ p0 t, st.pathPoints = p0 :: t := by
    cases hp : st.pathPoints with
    | nil => exact absurd hp hP
    | cons a t => exact ⟨a, t, rfl⟩
  have hp0 : p0 = s := by rw [hpt] at hH; simpa using hH
  obtain ⟨c0, ct, hct⟩ : ∃ c0 ct, st.checkpoints = c0 :: ct := by
    cases hc : st.checkpoints with
    | nil => rw [hc] at hC0; simp at hC0
    | cons c ct => exact ⟨c, ct, rfl⟩
  have hc0 : c0 = 0 := by rw [hct] at hC0; simpa using hC0
  cases a with
  | confirm c =>
    refine ⟨?_, ?_, ?_⟩
    · unfold applyAct confirmClick hoverPreview
      simp only [hpt]
      split <;> simp
    · unfold applyAct confirmClick hoverPreview
      simp only [hpt]
      split
      · simp [hp0]
      · split <;> simp [hp0]
    · unfold applyAct confirmClick hoverPreview
      simp only [hct]
      simp [hc0]
  | hover pv => exact ⟨by simpa [applyAct, hoverPreview] using hP,
      by simpa [applyAct, hoverPreview] using hH,
      by simpa [applyAct, hoverPreview] using hC0⟩
  | drag p =>
    refine ⟨?_, ?_, ?_⟩
    · unfold applyAct dragAppend
      simp [hpt]
    · unfold applyAct dragAppend
      simp [hpt, hp0]
    · unfold applyAct dragAppend
      simp [hct, hc0]
  | undo =>
    unfold applyAct undoToCheckpoint
    by_cases hcond : st.checkpoints.length ≤ 1
    · rw [if_pos hcond]
      exact ⟨hP, hH, hC0⟩
    · rw [if_neg hcond]
      refine ⟨?_, ?_, ?_⟩
      · simp only [hpt]
        simp
      · simp only [hpt]
        simp [hp0]
      · simp only []
        split
        · rw [hct]
          have : 2 ≤ st.checkpoints.length := by omega
          rw [hct] at this
          cases ct with
          | nil => simp at this
          | cons c1 ct' => simp [hc0]
        · rw [hct]
          simp [hc0]

theorem sessionInv_acts (s : Pt) (l : List TraceAct) :
    ∀ st : TraceState, SessionInv s st → SessionInv s (applyActs st l) := by
  induction l with
  | nil => exact fun st h => h
  | cons a rest ih =>
    intro st h
    exact ih (applyAct st a) (sessionInv_preserved s st a h)

/-- C5: starting a trace at `s`, performing `N` confirm actions and then `N`
undo-to-checkpoint actions restores the trace path to exactly `[s]` (and the
checkpoint list to `[0]`); moreover, under any sequence of session events
the path stays non-empty with first point `s` and checkpoint 0 stays the
first checkpoint — the start point is never removed while tracing. -/
theorem c5_confirm_undo_restores_start (s : Pt)
    (confirms : List (List Pt × Pt)) (acts : List TraceAct) :
    (undoN confirms.length (doConfirms (startTracing s) confirms)).pathPoints
        = [s] ∧
    (undoN confirms.length (doConfirms (startTracing s) confirms)).checkpoints
        = [0] ∧
    (applyActs (startTracing s) acts).pathPoints ≠ [] ∧
    (applyActs (startTracing s) acts).pathPoints.head? = some s ∧
    (applyActs (startTracing s) acts).checkpoints.head? = some 0 := by
  have h0 : AtCheckpoint (startTracing s) := by
    refine ⟨by simp [startTracing], by simp [startTracing], by simp [startTracing]⟩
  have hmain := undoN_doConfirms confirms (startTracing s) h0
  have hinv := sessionInv_acts s acts (startTracing s)
    ⟨by simp [startTracing], by simp [startTracing], by simp [startTracing]⟩
  exact ⟨hmain.1, hmain.2, hinv.1, hinv.2.1, hinv.2.2⟩

/-! ### Cost-field lemmas (towards C2) -/

theorem listMin_mem : ∀ {l : List ℤ} {m : ℤ}, listMin l = some m → m ∈ l := by
  intro l
  induction l with
  | nil => intro m hm; simp [listMin] at hm
  | cons a rest ih =>
    intro m hm
    unfold listMin at hm
    cases hr : listMin rest with
    | none =>
      rw [hr] at hm
      simp at hm
      simp [hm]
    | some mr =>
      rw [hr] at hm
      simp at hm
      rcases min_cases a mr with ⟨hmin, _⟩ | ⟨hmin, _⟩
      · rw [hmin] at hm
        simp [hm]
      · rw [hmin] at hm
        subst hm
        exact List.mem_cons_of_mem a (ih hr)

theorem listMin_le : ∀ {l : List ℤ} {m : ℤ}, listMin l = some m →
    ∀ x ∈ l, m ≤ x := by
  intro l
  induction l with
  | nil => intro m _ x hx; simp at hx
  | cons a rest ih =>
    intro m hm x hx
    unfold listMin at hm
    cases hr : listMin rest with
    | none =>
      rw [hr] at hm
      simp at hm
      have hrest : rest = [] := by
        cases rest with
        | nil => rfl
        | cons b t =>
          unfold listMin at hr
          cases h2 : listMin t <;> rw [h2] at hr <;> simp at hr
      subst hrest
      rcases List.mem_cons.mp hx with rfl | hx'
      · omega
      · simp at hx'
    | some mr =>
      rw [hr] at hm
      simp only [Option.some.injEq] at hm
      rcases List.mem_cons.mp hx with hxa | hx'
      · rw [hxa, ← hm]
        exact min_le_left _ _
      · calc m = min _ mr := hm.symm
          _ ≤ mr := min_le_right _ mr
          _ ≤ x := ih hr x hx'

theorem listMin_ne_nil : ∀ {l : List ℤ}, l ≠ [] → ∃ m, listMin l = some m := by
  intro l hl
  cases l with
  | nil => exact absurd rfl hl
  | cons a rest =>
    unfold listMin
    cases listMin rest with
    | none => exact ⟨a, rfl⟩
    | some mr => exact ⟨min a mr, rfl⟩

theorem mem_gridCells {w h : ℕ} {p : ℤ × ℤ} :
    p ∈ gridCells w h ↔ inGridP w h p := by
  unfold gridCells inGridP
  simp only [List.mem_flatMap, List.mem_map, List.mem_range]
  constructor
  · rintro ⟨y, hy, x, hx, rfl⟩
    exact ⟨by simp, by simpa using hx, by simp, by simpa using hy⟩
  · rintro ⟨h1, h2, h3, h4⟩
    refine ⟨p.2.toNat, by omega, p.1.toNat, by omega, ?_⟩
    rw [Int.toNat_of_nonneg h1, Int.toNat_of_nonneg h3]

theorem mem_maskCells {w h : ℕ} {mask : ℤ × ℤ → Bool} {p : ℤ × ℤ} :
    p ∈ maskCells w h mask ↔ inGridP w h p ∧ mask p = true := by
  unfold maskCells
  rw [List.mem_filter, mem_gridCells]

/-- C2: for a non-empty edge mask and adherence weight in `[0, 1]`, the cost
field is deterministic (extensionally equal inputs give equal fields) and
every in-grid cell `p` costs `1 + d(p) * (0.1 + 0.9 * w)` where `d(p)` is
the Euclidean distance to a nearest mask-true cell; hence the cost is at
least 1 everywhere and equals 1 exactly at mask-true cells. -/
theorem c2_cost_field_properties (w h : ℕ) (mask : ℤ × ℤ → Bool) (wt : ℝ)
    (p : ℤ × ℤ) (hmask : maskCells w h mask ≠ []) (hw0 : 0 ≤ wt)
    (hw1 : wt ≤ 1) (hp : inGridP w h p) :
    (∀ mask' wt', (∀ q, mask' q = mask q) → wt' = wt →
      getEdgeCostMap w h mask' wt' p = getEdgeCostMap w h mask wt p) ∧
    (∃ q ∈ maskCells w h mask,
      getEdgeCostMap w h mask wt p =
        1 + Real.sqrt ((sqDist p q : ℤ) : ℝ) * (1 / 10 + wt * (9 / 10)) ∧
      ∀ q' ∈ maskCells w h mask,
        Real.sqrt ((sqDist p q : ℤ) : ℝ) ≤ Real.sqrt ((sqDist p q' : ℤ) : ℝ)) ∧
    1 ≤ getEdgeCostMap w h mask wt p ∧
    (getEdgeCostMap w h mask wt p = 1 ↔ mask p = true) := by
  have hne : (maskCells w h mask).map (sqDist p) ≠ [] := by
    intro hnil
    exact hmask (List.map_eq_nil_iff.mp hnil)
  obtain ⟨d, hd⟩ := listMin_ne_nil hne
  obtain ⟨q, hq, hqd⟩ := List.mem_map.mp (listMin_mem hd)
  have hdle : ∀ x ∈ (maskCells w h mask).map (sqDist p), d ≤ x := listMin_le hd
  have hd0 : 0 ≤ d := by
    rw [← hqd]
    unfold sqDist
    positivity
  have hdt : distTransform w h mask p = Real.sqrt ((d : ℤ) : ℝ) := by
    unfold distTransform minSqDistToMask
    rw [hd]
  have hmult : (0 : ℝ) < 1 / 10 + wt * (9 / 10) := by nlinarith
  refine ⟨?_, ⟨q, hq, ?_, ?_⟩, ?_, ?_⟩
  · intro mask' wt' hm hwq
    subst hwq
    have hcells : maskCells w h mask' = maskCells w h mask := by
      unfold maskCells
      exact List.filter_congr (fun a _ => hm a)
    unfold getEdgeCostMap distTransform minSqDistToMask
    rw [hcells]
  · unfold getEdgeCostMap
    rw [hdt, hqd]
  · intro q' hq'
    rw [hqd]
    have hle : (d : ℝ) ≤ ((sqDist p q' : ℤ) : ℝ) := by
      exact_mod_cast hdle _ (List.mem_map_of_mem _ hq')
    exact Real.sqrt_le_sqrt hle
  · unfold getEdgeCostMap
    rw [hdt]
    have hs : 0 ≤ Real.sqrt ((d : ℤ) : ℝ) := Real.sqrt_nonneg _
    nlinarith
  · unfold getEdgeCostMap
    rw [hdt]
    constructor
    · intro hc
      have hprod : Real.sqrt ((d : ℤ) : ℝ) * (1 / 10 + wt * (9 / 10)) = 0 := by
        linarith
      have hsqrt : Real.sqrt ((d : ℤ) : ℝ) = 0 := by
        rcases mul_eq_zero.mp hprod with hz | hz
        · exact hz
        · exact absurd hz (ne_of_gt hmult)
      have hdz : ((d : ℤ) : ℝ) = 0 := by
        have := Real.sqrt_eq_zero (by exact_mod_cast hd0) |>.mp hsqrt
        exact this
      have hdz' : d = 0 := by exact_mod_cast hdz
      have hsq : sqDist p q = 0 := by rw [hqd, hdz']
      have hpq : p = q := by
        unfold sqDist at hsq
        have h1 : (p.1 - q.1) ^ 2 = 0 := by nlinarith [sq_nonneg (p.1 - q.1), sq_nonneg (p.2 - q.2)]
        have h2 : (p.2 - q.2) ^ 2 = 0 := by nlinarith [sq_nonneg (p.1 - q.1), sq_nonneg (p.2 - q.2)]
        have e1 : p.1 = q.1 := by nlinarith [sq_nonneg (p.1 - q.1)]
        have e2 : p.2 = q.2 := by nlinarith [sq_nonneg (p.2 - q.2)]
        exact Prod.ext e1 e2
      rw [hpq]
      exact (mem_maskCells.mp hq).2
    · intro hm
      have hpmem : p ∈ maskCells w h mask := mem_maskCells.mpr ⟨hp, hm⟩
      have hzero : sqDist p p = 0 := by unfold sqDist; ring
      have hle0 : d ≤ 0 := by
        have := hdle (sqDist p p) (List.mem_map_of_mem _ hpmem)
        omega
      have hdz : d = 0 := le_antisymm hle0 hd0
      rw [hdz]
      norm_num

/-- The concrete mask used to witness C2: a single edge pixel at the
origin of a 2-by-2 grid. -/
def singleCellMask : ℤ × ℤ → Bool := fun q => decide (q = (0, 0))

/-- Witness for C2 at the concrete mask, weight 1/2, and cell (1, 1). -/
theorem c2_witness :
    (maskCells 2 2 singleCellMask ≠ [] ∧ (0 : ℝ) ≤ 1 / 2 ∧ (1 / 2 : ℝ) ≤ 1 ∧
      inGridP 2 2 (1, 1)) ∧
    (1 ≤ getEdgeCostMap 2 2 singleCellMask (1 / 2) (1, 1) ∧
      (getEdgeCostMap 2 2 singleCellMask (1 / 2) (1, 1) = 1 ↔
        singleCellMask (1, 1) = true)) :=
  ⟨⟨by decide, by norm_num, by norm_num, by simp [inGridP]⟩,
    (c2_cost_field_properties 2 2 singleCellMask (1 / 2) (1, 1)
      (by decide) (by norm_num) (by norm_num) (by simp [inGridP])).2.2⟩

/-! ### Search runs with start equal to goal (towards C4) -/

theorem popMin_single (a : ℝ × ℤ × ℤ) : popMin [a] = some (a, []) := by
  simp [popMin]

theorem searchLoop_self (w h : ℤ) (cost : ℤ → ℤ → ℝ) (e : ℤ × ℤ) (fuel : ℕ)
    (pr : ℝ) (came : List ((ℤ × ℤ) × (ℤ × ℤ))) (csf : List ((ℤ × ℤ) × ℝ)) :
    searchLoop w h cost e (fuel + 1) ⟨[(pr, e.1, e.2)], came, csf, none, none⟩ =
      (⟨[], came, csf, some (e.1, e.2), some 0⟩, true) := by
  simp [searchLoop, popMin_single]

theorem findOptimalPathPixels_self (w h : ℤ) (cost : ℤ → ℤ → ℝ) (p : ℤ × ℤ) :
    (findOptimalPathPixels w h cost p p).path = some [] ∧
    (findOptimalPathPixels w h cost p p).timedOut = false := by
  unfold findOptimalPathPixels
  simp only [sub_self, abs_zero, add_zero, zero_mul, mul_zero]
  rw [show ((100000 : ℤ) ⊔ 0).toNat = 99999 + 1 from by decide]
  rw [searchLoop_self]
  simp [assemblePath, walkBack]

theorem loopPF_self (rows cols : ℤ) (costMap : ℤ → ℤ → ℝ) (e : ℤ × ℤ)
    (fuel : ℕ) (pr : ℝ) (came : List ((ℤ × ℤ) × (ℤ × ℤ)))
    (csf : List ((ℤ × ℤ) × ℝ)) :
    PF.loopPF rows cols costMap e (fuel + 1) ⟨[(pr, e.1, e.2)], came, csf⟩ =
      (⟨[], came, csf⟩, true) := by
  simp [PF.loopPF, popMin_single]

theorem findPath_self (startPt : ℤ × ℤ) (rows cols : ℤ)
    (costMap : ℤ → ℤ → ℝ) :
    PF.findPath startPt startPt rows cols costMap = some [startPt] := by
  unfold PF.findPath
  simp only []
  rw [show (50000 : ℕ) = 49999 + 1 from rfl]
  rw [loopPF_self]
  simp [PF.walkToStart]

/-- C4 (amended): `PathFinder.find_path` run with `start == end == p` does
return the single-point path `[p]` for every cost map; the interactive
tool's `find_optimal_path`, whose reconstruction always excludes the start
pixel, instead returns the empty continuation when a cost field is cached
and the target pixel equals the current pixel. -/
theorem c4_self_search_paths :
    (∀ (startPt : ℤ × ℤ) (rows cols : ℤ) (costMap : ℤ → ℤ → ℝ),
      PF.findPath startPt startPt rows cols costMap = some [startPt]) ∧
    (∀ (w h : ℤ) (cost : ℤ → ℤ → ℝ) (p : ℤ × ℤ),
      (findOptimalPathPixels w h cost p p).path = some []) :=
  ⟨fun startPt rows cols costMap => findPath_self startPt rows cols costMap,
    fun w h cost p => (findOptimalPathPixels_self w h cost p).1⟩

/-- C4 counterexample: on a concrete 2-by-2 all-ones cost field the
interactive search from pixel `(0,0)` to itself returns the empty path, not
the single-point path `[(0,0)]` that the claim requires. -/
theorem c4_counterexample_tool_self_empty :
    (findOptimalPathPixels 2 2 (fun _ _ => (1 : ℝ)) (0, 0) (0, 0)).path = some [] ∧
    (some [] : Option (List (ℤ × ℤ))) ≠ some [(0, 0)] :=
  ⟨(findOptimalPathPixels_self 2 2 (fun _ _ => (1 : ℝ)) (0, 0)).1, by simp⟩

/-! ### Search-path safety (towards C3) -/

/-- `q` is a legal pixel of a `w × h` cost field. -/
def inB (w h : ℤ) (q : ℤ × ℤ) : Prop :=
  0 ≤ q.1 ∧ q.1 < w ∧ 0 ≤ q.2 ∧ q.2 < h

/-- `a` and `b` differ by exactly one 8-connected step. -/
def adj8 (a b : ℤ × ℤ) : Prop :=
  a ≠ b ∧ -1 ≤ a.1 - b.1 ∧ a.1 - b.1 ≤ 1 ∧ -1 ≤ a.2 - b.2 ∧ a.2 - b.2 ≤ 1

theorem adj8_of_offset (cur d : ℤ × ℤ) (h1 : d.1 ≠ 0 ∨ d.2 ≠ 0)
    (h2 : -1 ≤ d.1) (h3 : d.1 ≤ 1) (h4 : -1 ≤ d.2) (h5 : d.2 ≤ 1) :
    adj8 cur (cur.1 + d.1, cur.2 + d.2) := by
  refine ⟨?_, by dsimp only; omega, by dsimp only; omega,
    by dsimp only; omega, by dsimp only; omega⟩
  intro heq
  have e1 : cur.1 = cur.1 + d.1 := congrArg Prod.fst heq
  have e2 : cur.2 = cur.2 + d.2 := congrArg Prod.snd heq
  rcases h1 with hne | hne <;> omega

/-- The loop invariant of the interactive search: everything queued, every
`came_from` entry, and the tracked best node stay inside the field, and
`came_from` links only 8-adjacent pixels. -/
def SInv (w h : ℤ) (st : SearchState) : Prop :=
  (∀ t ∈ st.pq, inB w h (t.2.1, t.2.2)) ∧
  (∀ kv ∈ st.came, inB w h kv.1 ∧ inB w h kv.2 ∧ adj8 kv.2 kv.1) ∧
  (∀ b, st.best = some b → inB w h b)

theorem popMin_mem : ∀ {l : List (ℝ × ℤ × ℤ)} {top rest},
    popMin l = some (top, rest) → top ∈ l ∧ ∀ x ∈ rest, x ∈ l := by
  intro l
  induction l with
  | nil => intro top rest hp; simp [popMin] at hp
  | cons a as ih =>
    intro top rest hp
    unfold popMin at hp
    cases hr : popMin as with
    | none =>
      rw [hr] at hp
      simp at hp
      obtain ⟨rfl, rfl⟩ := hp
      exact ⟨List.mem_cons_self a as, by intro x hx; simp at hx⟩
    | some mr =>
      obtain ⟨m, rest'⟩ := mr
      rw [hr] at hp
      simp only [] at hp
      by_cases hle : entryLe a m
      · rw [if_pos hle] at hp
        simp at hp
        obtain ⟨rfl, rfl⟩ := hp
        exact ⟨List.mem_cons_self a as, fun x hx => List.mem_cons_of_mem a hx⟩
      · rw [if_neg hle] at hp
        simp at hp
        obtain ⟨rfl, rfl⟩ := hp
        have ihm := ih hr
        refine ⟨List.mem_cons_of_mem a ihm.1, ?_⟩
        intro x hx
        rcases List.mem_cons.mp hx with rfl | hx'
        · exact List.mem_cons_self x as
        · exact List.mem_cons_of_mem a (ihm.2 x hx')

theorem aset_mem {α : Type} : ∀ {m : List ((ℤ × ℤ) × α)} {k : ℤ × ℤ} {v : α}
    {kv}, kv ∈ aset m k v → kv = (k, v) ∨ kv ∈ m := by
  intro m
  induction m with
  | nil =>
    intro k v kv hkv
    simp [aset] at hkv
    left
    exact hkv
  | cons en rest ih =>
    intro k v kv hkv
    unfold aset at hkv
    by_cases he : en.1 = k
    · rw [if_pos he] at hkv
      rcases List.mem_cons.mp hkv with rfl | hm
      · left; rfl
      · right; exact List.mem_cons_of_mem _ hm
    · rw [if_neg he] at hkv
      rcases List.mem_cons.mp hkv with rfl | hm
      · right; exact List.mem_cons_self _ _
      · rcases ih hm with h' | h'
        · left; exact h'
        · right; exact List.mem_cons_of_mem _ h'

theorem alookup_mem {α : Type} : ∀ {m : List ((ℤ × ℤ) × α)} {k : ℤ × ℤ}
    {v : α}, alookup m k = some v → (k, v) ∈ m := by
  intro m
  induction m with
  | nil => intro k v hv; simp [alookup] at hv
  | cons en rest ih =>
    intro k v hv
    unfold alookup at hv
    by_cases he : en.1 = k
    · rw [if_pos he] at hv
      simp only [Option.some.injEq] at hv
      have hen : en = (k, v) := by
        obtain ⟨k', v'⟩ := en
        simp only [] at he hv
        rw [he, hv]
      rw [hen]
      exact List.mem_cons_self _ _
    · rw [if_neg he] at hv
      exact List.mem_cons_of_mem _ (ih hv)

theorem push_inv (w h : ℤ) (st : SearchState) (cur d : ℤ × ℤ) (pr nc : ℝ)
    (hn : inB w h (cur.1 + d.1, cur.2 + d.2)) (hcur : inB w h cur)
    (hadj : adj8 cur (cur.1 + d.1, cur.2 + d.2)) (hinv : SInv w h st) :
    SInv w h
      { st with
        costSoFar := aset st.costSoFar (cur.1 + d.1, cur.2 + d.2) nc
        pq := (pr, cur.1 + d.1, cur.2 + d.2) :: st.pq
        came := aset st.came (cur.1 + d.1, cur.2 + d.2) cur } := by
  refine ⟨?_, ?_, hinv.2.2⟩
  · intro t ht
    rcases List.mem_cons.mp ht with rfl | ht'
    · exact hn
    · exact hinv.1 t ht'
  · intro kv hkv
    rcases aset_mem hkv with rfl | hkv'
    · exact ⟨hn, hcur, hadj⟩
    · exact hinv.2.1 kv hkv'

theorem relax_inv (w h : ℤ) (cost : ℤ → ℤ → ℝ) (e cur : ℤ × ℤ)
    (st : SearchState) (d : ℤ × ℤ)
    (hd : (d.1 ≠ 0 ∨ d.2 ≠ 0) ∧ -1 ≤ d.1 ∧ d.1 ≤ 1 ∧ -1 ≤ d.2 ∧ d.2 ≤ 1)
    (hcur : inB w h cur) (hinv : SInv w h st) :
    SInv w h (relaxNeighbor w h cost e cur st d) := by
  have hadj := adj8_of_offset cur d hd.1 hd.2.1 hd.2.2.1 hd.2.2.2.1 hd.2.2.2.2
  unfold relaxNeighbor
  simp only []
  split
  case isTrue hb =>
    have hn : inB w h (cur.1 + d.1, cur.2 + d.2) := hb
    repeat' split
    all_goals
      first
        | exact push_inv w h st cur d _ _ hn hcur hadj hinv
        | exact hinv
  case isFalse => exact hinv

theorem foldl_relax_inv (w h : ℤ) (cost : ℤ → ℤ → ℝ) (e cur : ℤ × ℤ) :
    ∀ (l : List (ℤ × ℤ)) (st : SearchState),
      (∀ d ∈ l, (d.1 ≠ 0 ∨ d.2 ≠ 0) ∧ -1 ≤ d.1 ∧ d.1 ≤ 1 ∧ -1 ≤ d.2 ∧ d.2 ≤ 1) →
      inB w h cur → SInv w h st →
      SInv w h (l.foldl (relaxNeighbor w h cost e cur) st) := by
  intro l
  induction l with
  | nil => exact fun st _ _ hinv => hinv
  | cons d rest ih =>
    intro st hl hcur hinv
    exact ih _ (fun d' hd' => hl d' (List.mem_cons_of_mem d hd')) hcur
      (relax_inv w h cost e cur st d (hl d (List.mem_cons_self d rest)) hcur hinv)

theorem neighborOffsets_ok :
    ∀ d ∈ neighborOffsets,
      (d.1 ≠ 0 ∨ d.2 ≠ 0) ∧ -1 ≤ d.1 ∧ d.1 ≤ 1 ∧ -1 ≤ d.2 ∧ d.2 ≤ 1 := by
  decide

theorem searchLoop_inv (w h : ℤ) (cost : ℤ → ℤ → ℝ) (e : ℤ × ℤ) :
    ∀ (fuel : ℕ) (st : SearchState), SInv w h st →
      SInv w h (searchLoop w h cost e fuel st).1 := by
  intro fuel
  induction fuel with
  | zero => exact fun st hinv => hinv
  | succ f ih =>
    intro st hinv
    rw [searchLoop]
    cases hpop : popMin st.pq with
    | none => exact hinv
    | some pr =>
      obtain ⟨top, rest⟩ := pr
      have hmem := popMin_mem hpop
      have hcur : inB w h (top.2.1, top.2.2) := hinv.1 top hmem.1
      have hkeep : SInv w h { st with pq := rest } :=
        ⟨fun t ht => hinv.1 t (hmem.2 t ht), hinv.2.1, hinv.2.2⟩
      have hupd : ∀ dd : ℤ, SInv w h
          { st with
            pq := rest
            best := some (top.2.1, top.2.2)
            minDist := some dd } :=
        fun dd => ⟨fun t ht => hinv.1 t (hmem.2 t ht), hinv.2.1,
          fun b hb => by
            simp only [Option.some.injEq] at hb
            rw [← hb]
            exact hcur⟩
      simp only []
      repeat' split
      all_goals
        first
          | exact hupd _
          | exact hkeep
          | exact ih _ (foldl_relax_inv w h cost e _ neighborOffsets _
              neighborOffsets_ok hcur (hupd _))
          | exact ih _ (foldl_relax_inv w h cost e _ neighborOffsets _
              neighborOffsets_ok hcur hkeep)

theorem walkBack_mem (came : List ((ℤ × ℤ) × (ℤ × ℤ))) (s : ℤ × ℤ) :
    ∀ (fuel : ℕ) (cur x : ℤ × ℤ), x ∈ walkBack came s fuel cur →
      x = cur ∨ ∃ kv ∈ came, x = kv.2 := by
  intro fuel
  induction fuel with
  | zero => intro cur x hx; simp [walkBack] at hx
  | succ f ih =>
    intro cur x hx
    unfold walkBack at hx
    by_cases hc : cur = s
    · rw [if_pos hc] at hx
      simp at hx
    · rw [if_neg hc] at hx
      cases hl : alookup came cur with
      | none =>
        rw [hl] at hx
        simp at hx
        left
        exact hx
      | some p =>
        rw [hl] at hx
        rcases List.mem_cons.mp hx with rfl | hx'
        · left; rfl
        · rcases ih p x hx' with rfl | hfound
          · right; exact ⟨(cur, x), alookup_mem hl, rfl⟩
          · right; exact hfound

theorem walkBack_head (came : List ((ℤ × ℤ) × (ℤ × ℤ))) (s : ℤ × ℤ)
    (fuel : ℕ) (cur : ℤ × ℤ) :
    walkBack came s fuel cur = [] ∨
      (walkBack came s fuel cur).head? = some cur := by
  cases fuel with
  | zero => left; rfl
  | succ f =>
    unfold walkBack
    by_cases hc : cur = s
    · rw [if_pos hc]
      left
      rfl
    · rw [if_neg hc]
      right
      rfl

theorem walkBack_chain (came : List ((ℤ × ℤ) × (ℤ × ℤ))) (s : ℤ × ℤ) :
    ∀ (fuel : ℕ) (cur : ℤ × ℤ),
      List.Chain' (fun a b => alookup came a = some b)
        (walkBack came s fuel cur) := by
  intro fuel
  induction fuel with
  | zero => intro cur; simp [walkBack]
  | succ f ih =>
    intro cur
    unfold walkBack
    by_cases hc : cur = s
    · rw [if_pos hc]
      simp
    · rw [if_neg hc]
      cases hl : alookup came cur with
      | none => simp
      | some p =>
        simp only []
        rw [List.chain'_cons']
        refine ⟨?_, ih p⟩
        intro y hy
        rcases walkBack_head came s f p with hnil | hhd
        · rw [hnil] at hy
          simp at hy
        · rw [hhd] at hy
          simp at hy
          rw [← hy]
          exact hl

theorem walkBack_reverse_props (w h : ℤ) (came : List ((ℤ × ℤ) × (ℤ × ℤ)))
    (s endU : ℤ × ℤ) (L : ℕ)
    (hcame : ∀ kv ∈ came, inB w h kv.1 ∧ inB w h kv.2 ∧ adj8 kv.2 kv.1)
    (hend : inB w h endU) :
    (∀ q ∈ (walkBack came s L endU).reverse, inB w h q) ∧
    List.Chain' adj8 ((walkBack came s L endU).reverse) := by
  constructor
  · intro q hq
    rw [List.mem_reverse] at hq
    rcases walkBack_mem came s L endU q hq with rfl | ⟨kv, hkv, rfl⟩
    · exact hend
    · exact (hcame kv hkv).2.1
  · rw [List.chain'_reverse]
    refine List.Chain'.imp ?_ (walkBack_chain came s L endU)
    intro a b hab
    exact (hcame (a, b) (alookup_mem hab)).2.2

theorem assemblePath_props (w h : ℤ) (s e : ℤ × ℤ) (res : SearchState × Bool)
    (hinv : SInv w h res.1) (heB : inB w h e) :
    ∀ path, (assemblePath s e res).path = some path →
      (∀ q ∈ path, inB w h q) ∧ List.Chain' adj8 path := by
  intro path hpath
  unfold assemblePath at hpath
  revert hpath
  cases hr2 : res.2 with
  | true =>
    intro hpath
    simp only [Option.some.injEq] at hpath
    rw [← hpath]
    exact walkBack_reverse_props w h res.1.came s e _ hinv.2.1 heB
  | false =>
    cases hb : res.1.best with
    | none => intro hpath; simp at hpath
    | some b =>
      intro hpath
      simp only [Option.some.injEq] at hpath
      rw [← hpath]
      exact walkBack_reverse_props w h res.1.came s b _ hinv.2.1
        (hinv.2.2 b hb)

theorem clampI_inB (w h : ℤ) (hw : 0 < w) (hh : 0 < h) (v : ℤ × ℤ) :
    inB w h (clampI 0 (w - 1) v.1, clampI 0 (h - 1) v.2) := by
  unfold inB clampI
  dsimp only
  have h1 : max 0 (min (w - 1) v.1) ≤ w - 1 :=
    max_le (by omega) (min_le_left _ _)
  have h2 : max 0 (min (h - 1) v.2) ≤ h - 1 :=
    max_le (by omega) (min_le_left _ _)
  exact ⟨le_max_left _ _, by omega, le_max_left _ _, by omega⟩

/-- C3 (amended): the interactive tool's `find_optimal_path` clamps both
endpoints into the field before searching, and every pixel path its search
returns consists of in-bounds pixels whose consecutive entries differ by a
single 8-connected step.  (`PathFinder.find_path` does not clamp; see the
counterexample, where its returned path starts at an out-of-bounds pixel.) -/
theorem c3_search_clamps_inbounds_adjacent (w h : ℤ) (cost : ℤ → ℤ → ℝ)
    (sR eR : ℤ × ℤ) (hw : 0 < w) (hh : 0 < h) :
    inB w h (clampI 0 (w - 1) sR.1, clampI 0 (h - 1) sR.2) ∧
    inB w h (clampI 0 (w - 1) eR.1, clampI 0 (h - 1) eR.2) ∧
    ∀ path, (findOptimalPathPixels w h cost sR eR).path = some path →
      (∀ q ∈ path, inB w h q) ∧ List.Chain' adj8 path := by
  have hs := clampI_inB w h hw hh sR
  have he := clampI_inB w h hw hh eR
  refine ⟨hs, he, ?_⟩
  intro path hpath
  unfold findOptimalPathPixels at hpath
  simp only [] at hpath
  have hinv0 : SInv w h
      ⟨[((0 : ℝ), clampI 0 (w - 1) sR.1, clampI 0 (h - 1) sR.2)], [],
        [((clampI 0 (w - 1) sR.1, clampI 0 (h - 1) sR.2), 0)], none, none⟩ := by
    refine ⟨?_, ?_, ?_⟩
    · intro t ht
      simp at ht
      rw [ht]
      exact hs
    · intro kv hkv
      simp at hkv
    · intro b hb
      simp at hb
  exact assemblePath_props w h _ _ _
    (searchLoop_inv w h cost _ _ _ hinv0) he path hpath

/-- C3 counterexample: `PathFinder.find_path` performs no clamping; run on a
2-by-2 all-ones cost map from the out-of-field start `(-1, -1)` to `(0, 0)`
it returns a path whose first pixel `(-1, -1)` is out of bounds, so the
claim's universally quantified in-bounds property fails on the cited code. -/
theorem c3_counterexample_findPath_oob :
    PF.findPath (-1, -1) (0, 0) 2 2 (fun _ _ => (1 : ℝ)) =
        some [(-1, -1), (0, 0)] ∧
      ¬ inB 2 2 (-1, -1) := by
  refine ⟨?_, by norm_num [inB]⟩
  unfold PF.findPath
  simp only []
  rw [show (50000 : ℕ) = 49998 + 1 + 1 from rfl]
  rw [PF.loopPF]
  norm_num [popMin, PF.relaxPF, alookup, aset, neighborOffsets, Prod.ext_iff]
  rw [show (49999 : ℕ) = 49998 + 1 from rfl, PF.loopPF]
  norm_num [popMin, PF.walkToStart, alookup, Prod.ext_iff]

/-- Witness for C3 on a 1-by-1 field where the search returns the empty
continuation. -/
theorem c3_witness :
    (0 : ℤ) < 1 ∧
    ((∀ q ∈ ([] : List (ℤ × ℤ)), inB 1 1 q) ∧
      List.Chain' adj8 ([] : List (ℤ × ℤ))) :=
  ⟨by norm_num,
    (c3_search_clamps_inbounds_adjacent 1 1 (fun _ _ => (1 : ℝ)) (0, 0) (0, 0)
        (by norm_num) (by norm_num)).2.2 []
      (findOptimalPathPixels_self 1 1 (fun _ _ => (1 : ℝ)) (0, 0)).1⟩

/-! ### A timeout run of `find_optimal_path` (towards C1)

A 100002-by-1 cost field: unit cost up to column 100000, a prohibitively
expensive cell beyond.  Starting at column 100000 with the goal at column
100001, the search marches left through the cheap corridor (the expensive
goal entry is never popped), exhausts its `max_iter = 100000` budget with
the best-effort node still equal to the start, and returns the empty
path. -/

/-- The corridor cost field. -/
noncomputable def corridorCost : ℤ → ℤ → ℝ :=
  fun x _ => if x ≤ 100000 then 1 else 10 ^ 9

theorem alookup_append_some {α : Type} : ∀ (l1 l2 : List ((ℤ × ℤ) × α))
    (key : ℤ × ℤ) (v : α), alookup l1 key = some v →
    alookup (l1 ++ l2) key = some v := by
  intro l1
  induction l1 with
  | nil =>
    intro l2 key v h
    exact absurd h (by simp [alookup])
  | cons en rest ih =>
    intro l2 key v h
    show (if en.1 = key then some en.2 else alookup (rest ++ l2) key) = some v
    by_cases he : en.1 = key
    · rw [if_pos he]
      rw [show alookup (en :: rest) key =
        (if en.1 = key then some en.2 else alookup rest key) from rfl,
        if_pos he] at h
      exact h
    · rw [if_neg he]
      rw [show alookup (en :: rest) key =
        (if en.1 = key then some en.2 else alookup rest key) from rfl,
        if_neg he] at h
      exact ih l2 key v h

theorem alookup_append_none {α : Type} : ∀ (l1 l2 : List ((ℤ × ℤ) × α))
    (key : ℤ × ℤ), alookup l1 key = none →
    alookup (l1 ++ l2) key = alookup l2 key := by
  intro l1
  induction l1 with
  | nil => intro l2 key _; rfl
  | cons en rest ih =>
    intro l2 key h
    rw [show alookup (en :: rest) key =
      (if en.1 = key then some en.2 else alookup rest key) from rfl] at h
    show (if en.1 = key then some en.2 else alookup (rest ++ l2) key) = _
    by_cases he : en.1 = key
    · rw [if_pos he] at h
      simp at h
    · rw [if_neg he] at h
      rw [if_neg he]
      exact ih l2 key h

theorem aset_fresh {α : Type} : ∀ (m : List ((ℤ × ℤ) × α)) (k : ℤ × ℤ)
    (v : α), alookup m k = none → aset m k v = m ++ [(k, v)] := by
  intro m
  induction m with
  | nil => intro k v _; rfl
  | cons en rest ih =>
    intro k v hk
    unfold alookup at hk
    by_cases he : en.1 = k
    · rw [if_pos he] at hk
      simp at hk
    · rw [if_neg he] at hk
      unfold aset
      rw [if_neg he, ih k v hk]
      rfl

/-- The Euclidean heuristic along the single row of the corridor field. -/
theorem heurDist_row (gx x : ℤ) (hle : x ≤ gx) :
    heurDist (gx, 0) (x, 0) = ((gx - x : ℤ) : ℝ) := by
  unfold heurDist
  dsimp only
  rw [show ((gx - x) ^ 2 + ((0 : ℤ) - 0) ^ 2 : ℤ) = (gx - x) ^ 2 from by ring]
  push_cast
  rw [Real.sqrt_sq (by exact_mod_cast sub_nonneg.mpr hle)]

/-- A neighbour offset that leaves the single row is rejected by the bounds
check and the relaxation is a no-op. -/
theorem relax_offgrid (w' : ℤ) (cost' : ℤ → ℤ → ℝ) (e' cur' : ℤ × ℤ)
    (st : SearchState) (d : ℤ × ℤ) (hcur2 : cur'.2 = 0) (hd2 : d.2 ≠ 0)
    (hd2a : -1 ≤ d.2) (hd2b : d.2 ≤ 1) :
    relaxNeighbor w' 1 cost' e' cur' st d = st := by
  unfold relaxNeighbor
  simp only []
  rw [if_neg]
  intro hcond
  omega

/-- The heap entry for the expensive cell next to the start, pushed at the
first iteration and never popped. -/
noncomputable def wallEntry : ℝ × ℤ × ℤ := ((10 : ℝ) ^ 9, 100001, 0)

/-- The frontier entry after `k + 2` iterations: the corridor front sits at
column `99998 - k` with accumulated cost `k + 2` and heuristic `k + 3`. -/
noncomputable def frontA (k : ℕ) : ℝ × ℤ × ℤ :=
  (2 * (k : ℝ) + 5, 99998 - (k : ℤ), 0)

/-- `cost_so_far` after `k + 2` iterations of the corridor run. -/
noncomputable def csA : ℕ → List ((ℤ × ℤ) × ℝ)
  | 0 =>
    [((100000, 0), 0), ((99999, 0), 1), ((100001, 0), (10 : ℝ) ^ 9),
      ((99998, 0), 2)]
  | k + 1 => csA k ++ [((99997 - (k : ℤ), 0), (k : ℝ) + 3)]

theorem csA_none : ∀ (k : ℕ) (x : ℤ), x < 99998 - (k : ℤ) →
    alookup (csA k) (x, 0) = none := by
  intro k
  induction k with
  | zero =>
    intro x hx
    unfold csA
    simp only [alookup]
    rw [if_neg (by simp [Prod.ext_iff]; omega)]
    rw [if_neg (by simp [Prod.ext_iff]; omega)]
    rw [if_neg (by simp [Prod.ext_iff]; omega)]
    rw [if_neg (by simp [Prod.ext_iff]; omega)]
  | succ k ih =>
    intro x hx
    show alookup (csA k ++ [((99997 - (k : ℤ), 0), (k : ℝ) + 3)]) (x, 0) = none
    rw [alookup_append_none _ _ _ (ih x (by push_cast at hx ⊢; omega))]
    simp only [alookup]
    rw [if_neg (by simp [Prod.ext_iff]; push_cast at hx; omega)]

theorem csA_lookup : ∀ (k j : ℕ), j ≤ k + 2 →
    alookup (csA k) (100000 - (j : ℤ), 0) = some ((j : ℝ)) := by
  intro k
  induction k with
  | zero =>
    intro j hj
    interval_cases j
    · unfold csA
      norm_num [alookup]
    · unfold csA
      norm_num [alookup]
    · unfold csA
      norm_num [alookup]
  | succ k ih =>
    intro j hj
    show alookup (csA k ++ [((99997 - (k : ℤ), 0), (k : ℝ) + 3)]) _ = _
    by_cases hj2 : j ≤ k + 2
    · exact alookup_append_some _ _ _ _ (ih j hj2)
    · have hj3 : j = k + 3 := by omega
      subst hj3
      rw [alookup_append_none _ _ _ (csA_none k _ (by omega))]
      simp only [alookup]
      rw [if_pos (by simp [Prod.ext_iff]; ring)]
      push_cast
      norm_num

/-- The two specialised lookups the step lemma needs. -/
theorem csA_cur (k : ℕ) :
    alookup (csA k) (99998 - (k : ℤ), 0) = some ((k : ℝ) + 2) := by
  have hbase := csA_lookup k (k + 2) (le_refl _)
  rw [show (100000 : ℤ) - ((k + 2 : ℕ) : ℤ) = 99998 - (k : ℤ) from by
    push_cast; ring] at hbase
  rw [hbase]
  push_cast
  norm_num

theorem csA_right (k : ℕ) :
    alookup (csA k) (99999 - (k : ℤ), 0) = some ((k : ℝ) + 1) := by
  have hbase := csA_lookup k (k + 1) (by omega)
  rw [show (100000 : ℤ) - ((k + 1 : ℕ) : ℤ) = 99999 - (k : ℤ) from by
    push_cast; ring] at hbase
  rw [hbase]
  push_cast
  norm_num

/-- The search state of the corridor run after `k + 2` iterations (for any
`came_from` table). -/
noncomputable def stA (k : ℕ) (cm : List ((ℤ × ℤ) × (ℤ × ℤ))) : SearchState :=
  ⟨[frontA k, wallEntry], cm, csA k, some (100000, 0), some 1⟩

theorem corridorCost_low (x y : ℤ) (hx : x ≤ 100000) :
    corridorCost x y = 1 := by
  unfold corridorCost
  rw [if_pos hx]

/-- Relaxing the left neighbour of the corridor front pushes the next front
cell. -/
theorem relaxA_left (k : ℕ) (hk : k ≤ 99997)
    (cm : List ((ℤ × ℤ) × (ℤ × ℤ))) :
    relaxNeighbor 100002 1 corridorCost (100001, 0) (99998 - (k : ℤ), 0)
      ⟨[wallEntry], cm, csA k, some (100000, 0), some 1⟩ (-1, 0) =
    stA (k + 1) (aset cm (99997 - (k : ℤ), 0) (99998 - (k : ℤ), 0)) := by
  have hkey : ((99998 - (k : ℤ) + -1, (0 : ℤ) + 0) : ℤ × ℤ) =
      (99997 - (k : ℤ), 0) := by
    simp only [Prod.mk.injEq]
    omega
  have hnone : alookup (csA k) (99997 - (k : ℤ), 0) = none :=
    csA_none k _ (by omega)
  unfold relaxNeighbor
  dsimp only
  rw [hkey]
  split
  case isFalse hb => exact absurd (by omega) hb
  case isTrue hb =>
    rw [hnone]
    simp only []
    rw [if_neg (show ¬((-1 : ℤ) ≠ 0 ∧ (0 : ℤ) ≠ 0) from by norm_num)]
    rw [csA_cur k, Option.getD_some]
    rw [corridorCost_low _ _ (by omega)]
    rw [heurDist_row 100001 (99997 - (k : ℤ)) (by omega)]
    rw [aset_fresh (csA k) (99997 - (k : ℤ), 0) _ hnone]
    simp only [stA, frontA]
    rw [show csA (k + 1) =
      csA k ++ [((99997 - (k : ℤ), 0), (k : ℝ) + 3)] from rfl]
    simp only [SearchState.mk.injEq, List.cons.injEq, Prod.mk.injEq,
      List.append_cancel_left_eq, and_true, true_and]
    push_cast
    refine ⟨⟨by ring, by ring⟩, by ring⟩

/-- Relaxing the right neighbour of the corridor front changes nothing: the
cell behind the front already carries a smaller cost. -/
theorem relaxA_right (k : ℕ) (hk : k ≤ 99997)
    (cm' : List ((ℤ × ℤ) × (ℤ × ℤ))) :
    relaxNeighbor 100002 1 corridorCost (100001, 0) (99998 - (k : ℤ), 0)
      (stA (k + 1) cm') (1, 0) = stA (k + 1) cm' := by
  have hkey : ((99998 - (k : ℤ) + 1, (0 : ℤ) + 0) : ℤ × ℤ) =
      (99999 - (k : ℤ), 0) := by
    simp only [Prod.mk.injEq]
    omega
  have hsplit : csA (k + 1) =
      csA k ++ [((99997 - (k : ℤ), 0), (k : ℝ) + 3)] := rfl
  have hcur : alookup (csA (k + 1)) (99998 - (k : ℤ), 0) =
      some ((k : ℝ) + 2) := by
    rw [hsplit]
    exact alookup_append_some _ _ _ _ (csA_cur k)
  have hn : alookup (csA (k + 1)) (99999 - (k : ℤ), 0) =
      some ((k : ℝ) + 1) := by
    rw [hsplit]
    exact alookup_append_some _ _ _ _ (csA_right k)
  unfold relaxNeighbor
  dsimp only [stA]
  rw [hkey]
  split
  case isFalse hb => exact absurd (by omega) hb
  case isTrue hb =>
    rw [hn]
    simp only []
    rw [if_neg (show ¬((1 : ℤ) ≠ 0 ∧ (0 : ℤ) ≠ 0) from by norm_num)]
    rw [hcur, Option.getD_some]
    rw [corridorCost_low _ _ (by omega)]
    rw [if_neg (show ¬((k : ℝ) + 2 + 1 * 1 < (k : ℝ) + 1) from by
      intro hcon
      nlinarith)]

/-- The first two iterations of the corridor run: pop the start (fixing
`best_node` and `min_dist` for good), push its two horizontal neighbours,
then pop the cheap left neighbour and push the next front cell.  The
expensive right neighbour stays buried in the queue. -/
theorem corrInit :
    searchLoop 100002 1 corridorCost (100001, 0) 100000
      ⟨[((0 : ℝ), 100000, 0)], [], [(((100000 : ℤ), (0 : ℤ)), (0 : ℝ))],
        none, none⟩ =
    searchLoop 100002 1 corridorCost (100001, 0) 99998
      (stA 0 [((99999, 0), (100000, 0)), ((100001, 0), (100000, 0)),
        ((99998, 0), (99999, 0))]) := by
  rw [show (100000 : ℕ) = 99998 + 1 + 1 from rfl]
  rw [searchLoop]
  norm_num [popMin, entryLe, neighborOffsets, relaxNeighbor, alookup, aset,
    corridorCost, heurDist_row, Prod.ext_iff]
  rw [show (99999 : ℕ) = 99998 + 1 from rfl, searchLoop]
  norm_num [popMin, entryLe, neighborOffsets, relaxNeighbor, alookup, aset,
    corridorCost, heurDist_row, Prod.ext_iff, stA, frontA, wallEntry, csA]

/-- One full iteration of the corridor run: the front advances one cell
leftwards and everything else is preserved. -/
theorem corrStepA (k f : ℕ) (hk : k ≤ 99997)
    (cm : List ((ℤ × ℤ) × (ℤ × ℤ))) :
    searchLoop 100002 1 corridorCost (100001, 0) (f + 1) (stA k cm) =
      searchLoop 100002 1 corridorCost (100001, 0) f
        (stA (k + 1) (aset cm (99997 - (k : ℤ), 0) (99998 - (k : ℤ), 0))) := by
  have hkR : (k : ℝ) ≤ 99997 := by exact_mod_cast hk
  have hle : entryLe (frontA k) wallEntry := by
    unfold entryLe
    left
    simp only [frontA, wallEntry]
    norm_num
    linarith
  have hpop : popMin [frontA k, wallEntry] = some (frontA k, [wallEntry]) := by
    unfold popMin
    rw [popMin_single wallEntry]
    simp only []
    rw [if_pos hle]
  rw [searchLoop]
  conv_lhs => dsimp only [stA]
  rw [hpop]
  dsimp only [frontA]
  rw [show |(100001 : ℤ) - (99998 - (k : ℤ))| + |(0 : ℤ) - 0| =
    (k : ℤ) + 3 from by rw [abs_of_nonneg (by omega : (0 : ℤ) ≤
      100001 - (99998 - (k : ℤ)))]; norm_num; omega]
  rw [if_neg (show ¬((k : ℤ) + 3 < 1) from by omega)]
  rw [if_neg (show ¬(((99998 - (k : ℤ), (0 : ℤ)) : ℤ × ℤ) = (100001, 0)) from by
    simp only [Prod.mk.injEq]
    omega)]
  simp only [neighborOffsets, List.foldl_cons, List.foldl_nil]
  rw [relaxA_left k hk cm, relaxA_right k hk]
  rw [relax_offgrid, relax_offgrid, relax_offgrid, relax_offgrid,
    relax_offgrid, relax_offgrid]
  all_goals first | rfl | decide

/-- Exhausting any remaining budget from a corridor state leaves the queue
non-empty, the `found` flag false, and the best-effort node at the start. -/
theorem corrRun : ∀ (f k : ℕ) (cm : List ((ℤ × ℤ) × (ℤ × ℤ))),
    k + f = 99998 →
    (searchLoop 100002 1 corridorCost (100001, 0) f (stA k cm)).2 = false ∧
    (searchLoop 100002 1 corridorCost (100001, 0) f (stA k cm)).1.best =
      some (100000, 0) ∧
    (searchLoop 100002 1 corridorCost (100001, 0) f (stA k cm)).1.pq ≠ [] := by
  intro f
  induction f with
  | zero =>
    intro k cm _
    refine ⟨rfl, rfl, ?_⟩
    simp [searchLoop, stA]
  | succ f ih =>
    intro k cm hk
    rw [corrStepA k f (by omega) cm]
    exact ih (k + 1) _ (by omega)

/-- **C1** (refuted — code bug).  The spec promises that on budget
exhaustion `find_optimal_path` returns a non-empty partial path to the
best-effort node, "never an empty result".  On the 100002-by-1 corridor
field `corridorCost` with start `(100000, 0)` and goal `(100001, 0)` the
goal cell costs `10^9`, so its queue entry is never popped: the search
spends its entire `max_iter = max(100000, 1 * 500) = 100000` budget
marching left through the unit-cost corridor while `best_node` stays at the
start (every later pop has a larger Manhattan distance to the goal).  The
timeout branch then reconstructs the path from `best_node == start`, and
since reconstruction excludes the start pixel it yields exactly the empty
path: the search loop exhausts its budget without reaching the goal
(`found = false`, third conjunct) yet the returned result is `some []` with
the timeout notice fired. -/
theorem c1_timeout_returns_empty_path :
    (findOptimalPathPixels 100002 1 corridorCost
      (100000, 0) (100001, 0)).path = some [] ∧
    (findOptimalPathPixels 100002 1 corridorCost
      (100000, 0) (100001, 0)).timedOut = true ∧
    (searchLoop 100002 1 corridorCost (100001, 0) 100000
      ⟨[((0 : ℝ), 100000, 0)], [], [(((100000 : ℤ), (0 : ℤ)), (0 : ℝ))],
        none, none⟩).2 = false := by
  have hrun := corrRun 99998 0
    [((99999, 0), (100000, 0)), ((100001, 0), (100000, 0)),
      ((99998, 0), (99999, 0))] (by norm_num)
  have hfd : (searchLoop 100002 1 corridorCost (100001, 0) 100000
      ⟨[((0 : ℝ), 100000, 0)], [], [(((100000 : ℤ), (0 : ℤ)), (0 : ℝ))],
        none, none⟩).2 = false := by
    rw [corrInit]
    exact hrun.1
  have hbest : (searchLoop 100002 1 corridorCost (100001, 0) 100000
      ⟨[((0 : ℝ), 100000, 0)], [], [(((100000 : ℤ), (0 : ℤ)), (0 : ℝ))],
        none, none⟩).1.best = some (100000, 0) := by
    rw [corrInit]
    exact hrun.2.1
  have hassem : findOptimalPathPixels 100002 1 corridorCost
      (100000, 0) (100001, 0) = ⟨some [], true⟩ := by
    unfold findOptimalPathPixels
    simp only []
    norm_num [clampI]
    rw [show Int.toNat 100000 = 100000 from by decide]
    unfold assemblePath
    rw [hfd, hbest]
    simp [walkBack]
  rw [hassem]
  exact ⟨rfl, rfl, hfd⟩

end AIVec
